import Mathlib

/-!
# Verification of the notto waypoint-routing engine

The repository solves a shortest-cost courier problem on a 100x100 square:
a fixed ordered sequence of integer waypoints, each of which may be visited
(costing a 10 second stop delay) or skipped (costing its penalty), between
the corners (0,0) and (100,100), travelling at speed 2.

The sources hold several snapshots of the same kernel:
* a pruned single-pass candidate-set engine over a heap keyed by a
  per-waypoint lower cost bound (`src/unnamed/part_003`),
* a pruned multimap engine (`src/unnamed/part_000`),
* multiset engines with the negative-penalty trick and the naive
  positive-penalty accrual (`src/main.cpp` first unit, `src/unnamed/part_002`),
* a quadratic reference dynamic program (`src/unnamed/part_004`).

The C++ computes with IEEE doubles; the embedding replaces them by exact
values.  Every cost arising in the engines is `q + k * sqrt 2 / 2` with
`q k : ℤ` (travel times between lattice points whose squared distance is
twice a square are exactly of this shape), so concrete runs are carried out
in the computable ordered group `Cost` below, and the engines themselves are
parametric in an ordered cost domain `K` and a travel-time function
`T : ℤ → ℤ → K` standing for `sqrt (dx^2 + dy^2) / speed`.
-/

/-- Exact cost value `a + b * sqrt 2 / 2` with integer `a`, `b`.  All values
manipulated by the engines on the concrete inputs below have this shape. -/
@[ext]
structure Cost where
  a : ℤ
  b : ℤ
deriving DecidableEq, Repr

namespace Cost

/-- The real value `a + b * sqrt 2 / 2` denoted by a `Cost`.  Used only in
proofs, to transfer the order axioms from `ℝ`. -/
noncomputable def val (x : Cost) : ℝ := (x.a : ℝ) + (x.b : ℝ) * Real.sqrt 2 / 2

/-- Computable order: `x ≤ y` iff `2*(x.a - y.a) ≤ (y.b - x.b) * sqrt 2`,
decided by integer sign analysis and squaring. -/
def le (x y : Cost) : Prop :=
  (0 ≤ y.b - x.b ∧ (x.a - y.a ≤ 0 ∨ 4 * (x.a - y.a) ^ 2 ≤ 2 * (y.b - x.b) ^ 2))
    ∨ (y.b - x.b < 0 ∧ x.a - y.a < 0 ∧ 2 * (y.b - x.b) ^ 2 ≤ 4 * (x.a - y.a) ^ 2)

instance decidableLe : DecidableRel Cost.le := fun x y => by
  unfold Cost.le
  infer_instance

theorem sqrt_two_sq : Real.sqrt 2 ^ 2 = 2 := Real.sq_sqrt (by norm_num)

theorem sqrt_two_pos : (0 : ℝ) < Real.sqrt 2 := Real.sqrt_pos.mpr (by norm_num)

/-- Core characterisation: the integer predicate decides `2*p ≤ r * sqrt 2`. -/
theorem two_mul_le_mul_sqrt (p r : ℤ) :
    ((2 * p : ℤ) : ℝ) ≤ (r : ℝ) * Real.sqrt 2 ↔
      ((0 ≤ r ∧ (p ≤ 0 ∨ 4 * p ^ 2 ≤ 2 * r ^ 2)) ∨
        (r < 0 ∧ p < 0 ∧ 2 * r ^ 2 ≤ 4 * p ^ 2)) := by
  have hs2 := sqrt_two_sq
  have hs0 := sqrt_two_pos
  constructor
  · intro h
    rcases le_or_lt 0 r with hr | hr
    · refine Or.inl ⟨hr, ?_⟩
      rcases le_or_lt p 0 with hp | hp
      · exact Or.inl hp
      · refine Or.inr ?_
        have hp' : (0 : ℝ) < (p : ℝ) := by exact_mod_cast hp
        have hr' : (0 : ℝ) ≤ (r : ℝ) := by exact_mod_cast hr
        have h' : (2 * (p : ℝ)) ≤ (r : ℝ) * Real.sqrt 2 := by push_cast at h; linarith
        have hsq : (2 * (p : ℝ)) ^ 2 ≤ ((r : ℝ) * Real.sqrt 2) ^ 2 := by
          have h2p : (0 : ℝ) ≤ 2 * (p : ℝ) := by linarith
          nlinarith
        have : 4 * (p : ℝ) ^ 2 ≤ 2 * (r : ℝ) ^ 2 := by nlinarith
        exact_mod_cast this
    · refine Or.inr ⟨hr, ?_, ?_⟩
      · by_contra hp
        push_neg at hp
        have hp' : (0 : ℝ) ≤ (p : ℝ) := by exact_mod_cast hp
        have hr' : ((r : ℝ)) < 0 := by exact_mod_cast hr
        have : (r : ℝ) * Real.sqrt 2 < 0 := mul_neg_of_neg_of_pos hr' hs0
        push_cast at h
        linarith
      · have hp : p < 0 := by
          by_contra hp
          push_neg at hp
          have hp' : (0 : ℝ) ≤ (p : ℝ) := by exact_mod_cast hp
          have hr' : ((r : ℝ)) < 0 := by exact_mod_cast hr
          have : (r : ℝ) * Real.sqrt 2 < 0 := mul_neg_of_neg_of_pos hr' hs0
          push_cast at h
          linarith
        have hp' : ((p : ℝ)) < 0 := by exact_mod_cast hp
        have hr' : ((r : ℝ)) < 0 := by exact_mod_cast hr
        have h' : (2 * (p : ℝ)) ≤ (r : ℝ) * Real.sqrt 2 := by push_cast at h; linarith
        have hrs : (r : ℝ) * Real.sqrt 2 < 0 := mul_neg_of_neg_of_pos hr' hs0
        have hA : (0 : ℝ) ≤ (r : ℝ) * Real.sqrt 2 - 2 * (p : ℝ) := by linarith
        have hB : (r : ℝ) * Real.sqrt 2 + 2 * (p : ℝ) < 0 := by linarith
        have hprod := mul_nonpos_of_nonneg_of_nonpos hA hB.le
        have : 2 * (r : ℝ) ^ 2 ≤ 4 * (p : ℝ) ^ 2 := by nlinarith
        exact_mod_cast this
  · intro h
    rcases h with ⟨hr, hp⟩ | ⟨hr, hp, hsq⟩
    · have hr' : (0 : ℝ) ≤ (r : ℝ) := by exact_mod_cast hr
      rcases hp with hp | hsq
      · have hp' : ((p : ℝ)) ≤ 0 := by exact_mod_cast hp
        have : (0 : ℝ) ≤ (r : ℝ) * Real.sqrt 2 := mul_nonneg hr' hs0.le
        push_cast
        linarith
      · have hsq' : 4 * (p : ℝ) ^ 2 ≤ 2 * (r : ℝ) ^ 2 := by exact_mod_cast hsq
        rcases le_or_lt p 0 with hp | hp
        · have hp' : ((p : ℝ)) ≤ 0 := by exact_mod_cast hp
          have : (0 : ℝ) ≤ (r : ℝ) * Real.sqrt 2 := mul_nonneg hr' hs0.le
          push_cast
          linarith
        · have hp' : (0 : ℝ) < (p : ℝ) := by exact_mod_cast hp
          have hsum : (0 : ℝ) < (r : ℝ) * Real.sqrt 2 + 2 * (p : ℝ) := by
            have : (0 : ℝ) ≤ (r : ℝ) * Real.sqrt 2 := mul_nonneg hr' hs0.le
            linarith
          have hdiff : (0 : ℝ) ≤ ((r : ℝ) * Real.sqrt 2 - 2 * (p : ℝ)) *
              ((r : ℝ) * Real.sqrt 2 + 2 * (p : ℝ)) := by nlinarith
          have hge : (0 : ℝ) ≤ (r : ℝ) * Real.sqrt 2 - 2 * (p : ℝ) := by
            by_contra hlt
            push_neg at hlt
            have := mul_neg_of_neg_of_pos hlt hsum
            linarith
          push_cast
          linarith
    · have hp' : ((p : ℝ)) < 0 := by exact_mod_cast hp
      have hr' : ((r : ℝ)) < 0 := by exact_mod_cast hr
      have hsq' : 2 * (r : ℝ) ^ 2 ≤ 4 * (p : ℝ) ^ 2 := by exact_mod_cast hsq
      have hsum : (r : ℝ) * Real.sqrt 2 + 2 * (p : ℝ) < 0 := by
        have : (r : ℝ) * Real.sqrt 2 < 0 := mul_neg_of_neg_of_pos hr' hs0
        linarith
      have hprod : ((r : ℝ) * Real.sqrt 2 - 2 * (p : ℝ)) *
          ((r : ℝ) * Real.sqrt 2 + 2 * (p : ℝ)) ≤ 0 := by nlinarith
      have hge : (0 : ℝ) ≤ (r : ℝ) * Real.sqrt 2 - 2 * (p : ℝ) := by
        by_contra hlt
        push_neg at hlt
        have := mul_pos_of_neg_of_neg hlt hsum
        linarith
      push_cast
      linarith

theorem le_iff_val (x y : Cost) : Cost.le x y ↔ x.val ≤ y.val := by
  have h := two_mul_le_mul_sqrt (x.a - y.a) (y.b - x.b)
  unfold Cost.le val
  rw [← h]
  constructor
  · intro h'
    push_cast at h' ⊢
    nlinarith [sqrt_two_pos]
  · intro h'
    push_cast at h' ⊢
    nlinarith [sqrt_two_pos]

theorem val_injective : Function.Injective Cost.val := by
  intro x y h
  unfold val at h
  by_cases hb : x.b = y.b
  · have : (x.a : ℝ) = y.a := by rw [hb] at h; linarith
    have ha : x.a = y.a := by exact_mod_cast this
    ext <;> [exact ha; exact hb]
  · exfalso
    have hbR : ((x.b : ℝ)) - (y.b : ℝ) ≠ 0 := by
      intro h0
      apply hb
      have : (x.b : ℝ) = (y.b : ℝ) := by linarith
      exact_mod_cast this
    have : Real.sqrt 2 = 2 * ((y.a : ℝ) - (x.a : ℝ)) / ((x.b : ℝ) - (y.b : ℝ)) := by
      field_simp
      nlinarith [h]
    have hirr := irrational_sqrt_two
    rw [this] at hirr
    have : (2 * ((y.a : ℤ) - (x.a : ℤ)) / ((x.b : ℤ) - (y.b : ℤ)) : ℚ) =
        (2 * ((y.a : ℝ) - (x.a : ℝ)) / ((x.b : ℝ) - (y.b : ℝ))) := by
      push_cast
      ring
    exact hirr ⟨_, this⟩

instance : LE Cost := ⟨Cost.le⟩

instance : LT Cost := ⟨fun x y => Cost.le x y ∧ ¬ Cost.le y x⟩

theorem le_def (x y : Cost) : (x ≤ y) = Cost.le x y := rfl

theorem le_iff_val' (x y : Cost) : x ≤ y ↔ x.val ≤ y.val := le_iff_val x y

theorem lt_iff_val (x y : Cost) : x < y ↔ x.val < y.val := by
  show Cost.le x y ∧ ¬ Cost.le y x ↔ _
  rw [le_iff_val, le_iff_val]
  constructor
  · rintro ⟨h1, h2⟩
    exact lt_of_le_not_le h1 h2
  · intro h
    exact ⟨h.le, fun h' => absurd h' (not_le.mpr h)⟩

instance decidableLE : @DecidableRel Cost (· ≤ ·) := fun x y =>
  Cost.decidableLe x y

instance decidableLT : @DecidableRel Cost (· < ·) := fun x y =>
  instDecidableAnd

instance linearOrder : LinearOrder Cost where
  le := Cost.le
  lt := fun x y => Cost.le x y ∧ ¬ Cost.le y x
  le_refl := fun x => (le_iff_val x x).mpr le_rfl
  le_trans := fun x y z hxy hyz =>
    (le_iff_val x z).mpr (le_trans ((le_iff_val x y).mp hxy) ((le_iff_val y z).mp hyz))
  le_antisymm := fun x y hxy hyx =>
    val_injective (le_antisymm ((le_iff_val x y).mp hxy) ((le_iff_val y x).mp hyx))
  le_total := fun x y => by
    rcases le_total x.val y.val with h | h
    · exact Or.inl ((le_iff_val x y).mpr h)
    · exact Or.inr ((le_iff_val y x).mpr h)
  lt_iff_le_not_le := fun x y => Iff.rfl
  decidableLE := Cost.decidableLE
  decidableEq := instDecidableEqCost
  decidableLT := Cost.decidableLT

instance : Zero Cost := ⟨⟨0, 0⟩⟩

instance : Add Cost := ⟨fun x y => ⟨x.a + y.a, x.b + y.b⟩⟩

instance : Neg Cost := ⟨fun x => ⟨-x.a, -x.b⟩⟩

instance : Sub Cost := ⟨fun x y => ⟨x.a - y.a, x.b - y.b⟩⟩

theorem zero_def : (0 : Cost) = ⟨0, 0⟩ := rfl

theorem add_def (x y : Cost) : x + y = ⟨x.a + y.a, x.b + y.b⟩ := rfl

theorem neg_def (x : Cost) : -x = ⟨-x.a, -x.b⟩ := rfl

theorem sub_def (x y : Cost) : x - y = ⟨x.a - y.a, x.b - y.b⟩ := rfl

instance addCommGroup : AddCommGroup Cost where
  add_assoc := by intro x y z; simp [add_def]; constructor <;> ring
  zero_add := by intro x; simp [add_def, zero_def]
  add_zero := by intro x; simp [add_def, zero_def]
  add_comm := by intro x y; simp [add_def]; constructor <;> ring
  neg_add_cancel := by intro x; simp [add_def, neg_def, zero_def]
  sub_eq_add_neg := by intro x y; simp [sub_def, add_def, neg_def]; constructor <;> ring
  nsmul := nsmulRec
  zsmul := zsmulRec

theorem val_zero : (0 : Cost).val = 0 := by simp [val, zero_def]

theorem val_add (x y : Cost) : (x + y).val = x.val + y.val := by
  simp [val, add_def]
  push_cast
  ring

instance orderedAddCommGroup : LinearOrderedAddCommGroup Cost :=
  { Cost.addCommGroup, Cost.linearOrder with
    add_le_add_left := by
      intro x y hxy z
      rw [le_iff_val'] at hxy ⊢
      rw [val_add, val_add]
      linarith }

end Cost

/-- Cost domain abstraction: the idealized arithmetic that replaces the
C++ `double`.  The engines only add, subtract, compare and take minima of
costs, and mix in natural-number penalties and the integer delay constant,
so a linearly ordered additive group with a compatible embedding of ℕ
suffices. -/
class CostAlg (K : Type) extends LinearOrderedAddCommGroup K where
  ofn : ℕ → K
  ofn_zero : ofn 0 = 0
  ofn_add : ∀ m n : ℕ, ofn (m + n) = ofn m + ofn n
  ofn_nonneg : ∀ n : ℕ, 0 ≤ ofn n

instance : CostAlg Cost where
  ofn n := ⟨(n : ℤ), 0⟩
  ofn_zero := by simp [Cost.zero_def]
  ofn_add := by intro m n; simp [Cost.add_def]
  ofn_nonneg := by
    intro n
    rw [Cost.le_iff_val']
    simp [Cost.val, Cost.zero_def]

instance : CostAlg ℤ where
  ofn n := (n : ℤ)
  ofn_zero := by simp
  ofn_add := by intro m n; push_cast; ring
  ofn_nonneg := by intro n; positivity

export CostAlg (ofn)

theorem ofn_cost (n : ℕ) : (ofn n : Cost) = ⟨(n : ℤ), 0⟩ := rfl

/-- A parsed waypoint record: integer coordinates and a non-negative integer
penalty (`class Waypoint` across all source units; coordinates are `uint8_t`
in part_003, plain `int` elsewhere — embedded as ℤ with the bounds in
`Waypoint.sane`). -/
structure Waypoint where
  x : ℤ
  y : ℤ
  penalty : ℕ
deriving DecidableEq, Repr

/-- `Waypoint::is_sane` (part_000/part_003): coordinates within `[0, edge]`,
`edge = 100`. -/
def Waypoint.sane (w : Waypoint) : Prop :=
  0 ≤ w.x ∧ w.x ≤ 100 ∧ 0 ≤ w.y ∧ w.y ≤ 100

instance (w : Waypoint) : Decidable w.sane := by
  unfold Waypoint.sane
  infer_instance

/-- Squared Euclidean distance of a coordinate delta.  The source computes
`sqrt(dx*dx + dy*dy) / speed`; comparisons of travel times between lattice
deltas are exactly comparisons of this integer. -/
def normSq (dx dy : ℤ) : ℤ := dx * dx + dy * dy

/-- The origin sentinel `Waypoint(0, 0)` with penalty 0. -/
def headW : Waypoint := ⟨0, 0, 0⟩

/-- The terminus sentinel `Waypoint(edge, edge)` with penalty 0. -/
def tailW : Waypoint := ⟨100, 100, 0⟩

namespace P3

/-!
## part_003: the pruned candidate-heap engine

Faithful embedding of `src/unnamed/part_003`, parametric in the cost domain
`K` and the travel-time function `T dx dy`, which stands for
`time_to(dx, dy) = sqrt(dx*dx + dy*dy) / speed`.  The C++ max-heap keyed by
`cost_min` is represented as a plain list: the only observations made of it
are a minimum-fold over all elements (`get_best_cost`) and removal of every
element whose `cost_min` exceeds a threshold (`prune` pops the top of the
max-heap while it exceeds the threshold, which removes exactly those
elements), so the element order is irrelevant.
-/

variable {K : Type} [CostAlg K]

/-- `coord_min` (part_003): `min(edge - x, x)`, no clamping — distance from a
coordinate to the nearest edge of the square. -/
def coord_min (x : ℤ) : ℤ := min (100 - x) x

/-- `coord_max` (part_003): `max(edge - x, x)`. -/
def coord_max (x : ℤ) : ℤ := max (100 - x) x

variable (T : ℤ → ℤ → K)

/-- `Waypoint::time_to` (part_003): `::time_to(other.x - x, other.y - y)`
with `this` the receiver. -/
def time_to (a other : Waypoint) : K := T (other.x - a.x) (other.y - a.y)

/-- `Waypoint::time_min` (part_003): travel time of the best-case hop delta
`(coord_min x, coord_min y)`. -/
def wtime_min (w : Waypoint) : K := T (coord_min w.x) (coord_min w.y)

/-- `Waypoint::time_max` (part_003). -/
def wtime_max (w : Waypoint) : K := T (coord_max w.x) (coord_max w.y)

/-- `class OptimisedWaypoint` (part_003): a candidate with its waypoint, its
invariant cost `cost_best - penalty + delay` and the cached
`cost_min = time_min() + cost_invariant`. -/
structure OptimisedWaypoint (K : Type) where
  waypoint : Waypoint
  cost_invariant : K
  cost_min : K
deriving DecidableEq

/-- The `OptimisedWaypoint(waypoint, cost_best)` constructor. -/
def OptimisedWaypoint.make (w : Waypoint) (cost_best : K) : OptimisedWaypoint K :=
  let inv := cost_best - ofn w.penalty + ofn 10
  ⟨w, inv, wtime_min T w + inv⟩

/-- `OptimisedWaypoint::cost_to(visited)`:
`visited.time_to(waypoint) + cost_invariant`. -/
def cost_to (ow : OptimisedWaypoint K) (visited : Waypoint) : K :=
  time_to T visited ow.waypoint + ow.cost_invariant

/-- `OptimisedWaypoint::cost_max()`: `waypoint.time_max() + cost_invariant`. -/
def cost_max (ow : OptimisedWaypoint K) : K :=
  wtime_max T ow.waypoint + ow.cost_invariant

/-- `prune(opt_heap, to_exceed)` (part_003): pop the max-`cost_min` element
while it exceeds `to_exceed`; equivalently, drop every element whose
`cost_min` exceeds `to_exceed`. -/
def prune (to_exceed : K) (heap : List (OptimisedWaypoint K)) :
    List (OptimisedWaypoint K) :=
  heap.filter (fun ow => decide (ow.cost_min ≤ to_exceed))

/-- `get_best_cost(visited, opt_heap)` (part_003): fold of `min` over
`cost_to(visited)` of every element.  The C++ starts from
`numeric_limits<cost_t>::max()` and asserts the result is below it, which
fails exactly on an empty heap: embedded as `none`. -/
def get_best_cost (visited : Waypoint) (heap : List (OptimisedWaypoint K)) :
    Option K :=
  match heap with
  | [] => none
  | c :: rest => some (rest.foldl (fun acc ow => min acc (cost_to T ow visited))
      (cost_to T c visited))

/-- `cost_acceptable >= x` where `cost_acceptable` starts at
`numeric_limits<cost_t>::max()` (embedded as `none` = infinity). -/
def accGe (acc : Option K) (x : K) : Bool :=
  match acc with
  | none => true
  | some a => decide (x ≤ a)

/-- The body of `solve`'s loop (part_003), one visited waypoint at a time.
State: the heap, `cost_acceptable` (`none` = infinity), `cost_min_best`, and
the running `total_penalty`. -/
def solveGo (heap : List (OptimisedWaypoint K)) (acc : Option K) (cmb : K)
    (total : ℕ) : List Waypoint → Option K
  | [] =>
      (get_best_cost T tailW heap).map (fun cb => cb + ofn total)
  | v :: rest =>
      if v.sane then
        match get_best_cost T v heap with
        | none => none
        | some cost_best =>
          let total2 := total + v.penalty
          let new := OptimisedWaypoint.make T v cost_best
          if accGe acc new.cost_min then
            if new.cost_min ≤ cmb then
              solveGo (prune (cost_max T new) (heap) ++ [new]) (some (cost_max T new))
                new.cost_min total2 rest
            else
              solveGo (heap ++ [new]) acc cmb total2 rest
          else
            solveGo heap acc cmb total2 rest
      else none

/-- `solve(reader, n)` (part_003): start from the origin sentinel candidate
`head` with `cost_acceptable = infinity` and `cost_min_best = head.cost_min()`;
afterwards query the heap from the terminus and undo the negative penalty
bank by adding `total_penalty`. -/
def solve (ws : List Waypoint) : Option K :=
  let hd := OptimisedWaypoint.make T headW 0
  solveGo T [hd] none hd.cost_min 0 ws

end P3

/-- Fuel-driven integer square root (largest `r` with `r * r ≤ n`), by upward
search.  Structurally recursive so that concrete engine runs reduce inside
the kernel; proved equal to `Nat.sqrt` below. -/
def isqrtFrom (n : ℕ) : ℕ → ℕ → ℕ
  | k, 0 => k
  | k, fuel + 1 => if (k + 1) * (k + 1) ≤ n then isqrtFrom n (k + 1) fuel else k

def isqrtN (n : ℕ) : ℕ := isqrtFrom n 0 n

theorem isqrtFrom_spec (n : ℕ) :
    ∀ fuel k, k * k ≤ n → n < (k + fuel + 1) * (k + fuel + 1) →
      isqrtFrom n k fuel * isqrtFrom n k fuel ≤ n ∧
        n < (isqrtFrom n k fuel + 1) * (isqrtFrom n k fuel + 1) := by
  intro fuel
  induction fuel with
  | zero =>
    intro k hk hfuel
    simpa [isqrtFrom] using ⟨hk, by simpa using hfuel⟩
  | succ fuel ih =>
    intro k hk hfuel
    by_cases hstep : (k + 1) * (k + 1) ≤ n
    · have h1 : isqrtFrom n k (fuel + 1) = isqrtFrom n (k + 1) fuel := by
        simp [isqrtFrom, hstep]
      rw [h1]
      refine ih (k + 1) hstep ?_
      have heq : k + 1 + fuel + 1 = k + (fuel + 1) + 1 := by omega
      rw [heq]
      exact hfuel
    · have h1 : isqrtFrom n k (fuel + 1) = k := by simp [isqrtFrom, hstep]
      rw [h1]
      exact ⟨hk, by omega⟩

theorem isqrtN_eq_sqrt (n : ℕ) : isqrtN n = Nat.sqrt n := by
  have h := isqrtFrom_spec n n 0 (by omega) (by nlinarith)
  unfold isqrtN
  have h1 : isqrtFrom n 0 n ≤ Nat.sqrt n := Nat.le_sqrt'.mpr (by rw [pow_two]; exact h.1)
  have h2 : Nat.sqrt n < isqrtFrom n 0 n + 1 := Nat.sqrt_lt'.mpr (by rw [pow_two]; exact h.2)
  omega

/-- Exact travel time over `Cost`: `timeC dx dy` is `k * sqrt 2 / 2` with
`k = isqrtN (normSq dx dy / 2)`.  Whenever `normSq dx dy = 2 * k ^ 2`
(true of every delta evaluated in the concrete cases below) this is exactly
`sqrt (dx^2 + dy^2) / 2`, the `time_to` of the source with `speed = 2`;
elsewhere it rounds down, which keeps it monotone in the squared distance. -/
def timeC (dx dy : ℤ) : Cost := ⟨0, (isqrtN ((normSq dx dy).toNat / 2) : ℤ)⟩

theorem timeC_exact (dx dy : ℤ) (k : ℕ) (h : normSq dx dy = 2 * (k : ℤ) ^ 2) :
    timeC dx dy = ⟨0, (k : ℤ)⟩ := by
  unfold timeC
  have hcast : (2 * (k : ℤ) ^ 2) = ((2 * k ^ 2 : ℕ) : ℤ) := by push_cast; ring
  have h1 : (normSq dx dy).toNat = 2 * k ^ 2 := by
    rw [h, hcast, Int.toNat_natCast]
  rw [h1]
  have h2 : 2 * k ^ 2 / 2 = k ^ 2 := by omega
  rw [h2, isqrtN_eq_sqrt, pow_two, Nat.sqrt_eq]

/-- On exact deltas, `timeC` denotes precisely the Euclidean travel time of
the source, `sqrt (dx^2 + dy^2) / speed`. -/
theorem timeC_val_exact (dx dy : ℤ) (k : ℕ) (h : normSq dx dy = 2 * (k : ℤ) ^ 2) :
    (timeC dx dy).val = Real.sqrt ((dx : ℝ) ^ 2 + (dy : ℝ) ^ 2) / 2 := by
  rw [timeC_exact dx dy k h]
  have hn : ((dx : ℝ) ^ 2 + (dy : ℝ) ^ 2) = ((k : ℝ)) ^ 2 * 2 := by
    have := h
    unfold normSq at this
    have h' : ((dx * dx + dy * dy : ℤ) : ℝ) = ((2 * (k : ℤ) ^ 2 : ℤ) : ℝ) := by
      exact_mod_cast congrArg (fun z : ℤ => (z : ℝ)) this
    push_cast at h'
    nlinarith [h']
  rw [hn, Real.sqrt_mul (sq_nonneg ((k : ℝ))) 2, Real.sqrt_sq (Nat.cast_nonneg k)]
  simp [Cost.val]

namespace P0

/-!
## part_000: the pruned multimap engine

Faithful embedding of `src/unnamed/part_000`.  The `std::multimap` keyed by
`cost_min` is represented as a list kept sorted by `cost_min`, with
`emplace` inserting at the upper bound of equal keys (`std::multimap`
semantics) and reporting whether the new element landed at `cbegin()`.
-/

variable {K : Type} [CostAlg K]

/-- `coord_min` (part_000): `max(1, min(edge - x, x))` — clamped at 1 to
reflect the global waypoint-uniqueness assumption. -/
def coord_min (x : ℤ) : ℤ := max 1 (min (100 - x) x)

/-- `coord_max` (part_000): `max(edge - x, x)`. -/
def coord_max (x : ℤ) : ℤ := max (100 - x) x

variable (T : ℤ → ℤ → K)

/-- `Waypoint::time_to` (part_000): `::time_to(x - other.x, y - other.y)`
with `this` the receiver (note the sign, opposite to part_003). -/
def time_to (a other : Waypoint) : K := T (a.x - other.x) (a.y - other.y)

/-- `Waypoint::time_min` (part_000). -/
def wtime_min (w : Waypoint) : K := T (coord_min w.x) (coord_min w.y)

/-- `Waypoint::time_max` (part_000). -/
def wtime_max (w : Waypoint) : K := T (coord_max w.x) (coord_max w.y)

/-- `class OptimisedWaypoint` (part_000): waypoint, `best_cost`,
`invariant_cost = best_cost - penalty + delay`,
`cost_min = time_min() + invariant_cost`. -/
structure OptimisedWaypoint (K : Type) where
  waypoint : Waypoint
  best_cost : K
  invariant_cost : K
  cost_min : K
deriving DecidableEq

/-- The `OptimisedWaypoint(waypoint, best_cost)` constructor (part_000). -/
def OptimisedWaypoint.make (w : Waypoint) (best_cost : K) : OptimisedWaypoint K :=
  let inv := best_cost - ofn w.penalty + ofn 10
  ⟨w, best_cost, inv, wtime_min T w + inv⟩

/-- `OptimisedWaypoint::cost_from(visited)`:
`visited.time_to(waypoint) + invariant_cost`. -/
def cost_from (ow : OptimisedWaypoint K) (visited : Waypoint) : K :=
  time_to T visited ow.waypoint + ow.invariant_cost

/-- `OptimisedWaypoint::cost_max()`. -/
def cost_max (ow : OptimisedWaypoint K) : K :=
  wtime_max T ow.waypoint + ow.invariant_cost

/-- `emplace` into the `cost_min`-sorted multimap at the upper bound of
equal keys. -/
def emplace (c : OptimisedWaypoint K) :
    List (OptimisedWaypoint K) → List (OptimisedWaypoint K)
  | [] => [c]
  | h :: t => if c.cost_min < h.cost_min then c :: h :: t else h :: emplace c t

/-- `OptimisedWaypoint::emplace`'s return value: whether the new element was
inserted at `cbegin()` — with upper-bound insertion this holds iff its key
is strictly below every existing key, i.e. below the first. -/
def emplacedAtBegin (c : OptimisedWaypoint K) :
    List (OptimisedWaypoint K) → Bool
  | [] => true
  | h :: _ => decide (c.cost_min < h.cost_min)

/-- `prune(opt_waypoints, to_exceed)` (part_000): erase everything above
`upper_bound(to_exceed)`; `assert(prune_from != cbegin())` means the call
must retain the first (lowest-key) element, embedded as `none` on failure. -/
def prune (to_exceed : K) :
    List (OptimisedWaypoint K) → Option (List (OptimisedWaypoint K))
  | [] => none
  | h :: t =>
      if h.cost_min ≤ to_exceed then
        some ((h :: t).filter (fun ow => decide (ow.cost_min ≤ to_exceed)))
      else none

/-- `get_best_cost(visited, opt_waypoints)` (part_000): minimum of
`cost_from(visited)` over all elements; `assert(best_cost < max())` fails
exactly on an empty map: embedded as `none`. -/
def get_best_cost (visited : Waypoint) (l : List (OptimisedWaypoint K)) :
    Option K :=
  match l with
  | [] => none
  | c :: rest => some (rest.foldl (fun acc ow => min acc (cost_from T ow visited))
      (cost_from T c visited))

/-- Loop body of `solve` (part_000).  State: the sorted candidate map, the
`acceptable_cost` (`none` = `numeric_limits<double>::max()`), and the running
`total_penalty`. -/
def solveGo (l : List (OptimisedWaypoint K)) (acc : Option K) (total : ℕ) :
    List Waypoint → Option K
  | [] => (get_best_cost T tailW l).map (fun cb => cb + ofn total)
  | v :: rest =>
      if v.sane then
        match get_best_cost T v l with
        | none => none
        | some best =>
          let total2 := total + v.penalty
          let new := OptimisedWaypoint.make T v best
          if P3.accGe acc new.cost_min then
            let l2 := emplace new l
            if emplacedAtBegin new l then
              match prune (cost_max T new) l2 with
              | none => none
              | some l3 => solveGo l3 (some (cost_max T new)) total2 rest
            else solveGo l2 acc total2 rest
          else solveGo l acc total2 rest
      else none

/-- `solve(reader, n)` (part_000): `head` sentinel candidate inserted first,
`acceptable_cost` starts at infinity; finally query from `(edge, edge)` and
add `total_penalty`. -/
def solve (ws : List Waypoint) : Option K :=
  solveGo T [OptimisedWaypoint.make T headW 0] none 0 ws

end P0

/-- Drop elements from the back of a list while they satisfy `p` (the
multiset `prune` loops erase from the maximum end). -/
def dropTrailing {α : Type} (p : α → Bool) (l : List α) : List α :=
  (l.reverse.dropWhile p).reverse

namespace M1

/-!
## main.cpp, first unit: the multiset engine with negative penalty accrual

Faithful embedding of the first translation unit of `src/main.cpp`: a
`std::multiset<OptimisedWaypoint>` ordered by `invariant_cost`, processed
from the tail backwards, where each candidate banks its own penalty
negatively (`cost_for` subtracts `accrued_penalty`), and the final result
adds back `total_penalty`.  The multiset is a list kept sorted by
`invariant_cost` with upper-bound insertion.  The prune threshold constant
`time_max - time_min` is kept as two parameters `tmaxC tminC` of the
embedding (in the source they are `100*sqrt(2)/2` and `0.5`, which the
equivalence proved below does not depend on).
-/

variable {K : Type} [CostAlg K]

/-- `class OptimisedWaypoint` (main.cpp unit 1): a candidate holding
`best_cost` and its own penalty in `accrued_penalty`. -/
structure OptimisedWaypoint (K : Type) where
  waypoint : Waypoint
  best_cost : K
  accrued_penalty : ℕ
deriving DecidableEq

/-- `invariant_cost()`: `best_cost - accrued_penalty`. -/
def inv (ow : OptimisedWaypoint K) : K := ow.best_cost - ofn ow.accrued_penalty

variable (T : ℤ → ℤ → K)

/-- `cost_for(visited)`: `visited.time_to(waypoint) + best_cost -
accrued_penalty + delay` (deltas `visited - waypoint`). -/
def cost_for (ow : OptimisedWaypoint K) (visited : Waypoint) : K :=
  T (visited.x - ow.waypoint.x) (visited.y - ow.waypoint.y) +
    ow.best_cost - ofn ow.accrued_penalty + ofn 10

/-- `multiset::emplace`: insert into the `invariant_cost`-sorted list at the
upper bound of equal keys. -/
def emplace (c : OptimisedWaypoint K) :
    List (OptimisedWaypoint K) → List (OptimisedWaypoint K)
  | [] => [c]
  | h :: t => if inv c < inv h then c :: h :: t else h :: emplace c t

variable (tmaxC tminC : K)

/-- `prune(opt_waypoints)` (main.cpp unit 1): erase from the maximum end
while `invariant_cost() > cbegin()->invariant_cost() + time_max - time_min`. -/
def prune (l : List (OptimisedWaypoint K)) : List (OptimisedWaypoint K) :=
  match l with
  | [] => []
  | h :: t =>
      dropTrailing (fun c => decide (inv h + tmaxC - tminC < inv c)) (h :: t)

/-- `get_best_cost(visited, opt_waypoints)` (main.cpp unit 1): minimum of
`cost_for(visited)`; the fold starts from `numeric_limits<double>::max()`,
embedded as `none` on the empty set. -/
def get_best_cost (visited : Waypoint) (l : List (OptimisedWaypoint K)) :
    Option K :=
  match l with
  | [] => none
  | c :: rest => some (rest.foldl (fun acc ow => min acc (cost_for T ow visited))
      (cost_for T c visited))

/-- Loop body of `solve` (main.cpp unit 1), iterating the waypoints in
reverse order; the final step is the `visited == end` query at the origin
(whose penalty is 0) returning `best_cost + total_penalty`. -/
def solveGo (set : List (OptimisedWaypoint K)) (total : ℕ) :
    List Waypoint → Option K
  | [] => (get_best_cost T headW set).map (fun cb => cb + ofn total)
  | v :: rest =>
      match get_best_cost T v set with
      | none => none
      | some best =>
          solveGo (prune tmaxC tminC (emplace ⟨v, best, v.penalty⟩ set))
            (total + v.penalty) rest

/-- `solve(waypoints)` (main.cpp unit 1): one candidate for the terminus
(`best_cost = 0`, no penalty), then the intermediate waypoints in reverse
input order, then the origin query. -/
def solve (ws : List Waypoint) : Option K :=
  solveGo T tmaxC tminC [⟨tailW, 0, 0⟩] 0 ws.reverse

end M1

namespace P2

/-!
## part_002, first unit: the naive positive-penalty multiset engine

Faithful embedding of the first translation unit of `src/unnamed/part_002`:
the same backward multiset loop as main.cpp unit 1, but each step re-adds
the visited waypoint's penalty to every live candidate
(`opt_waypoints_off->emplace(*w, visited->penalty)` over the whole set,
embedded as a `map` since the uniform key shift preserves the multiset
order), the new candidate starts with `accrued_penalty = 0`, `cost_for`
adds the accrued penalty positively, and the final result is returned
without a correction term.
-/

variable {K : Type} [CostAlg K]

/-- `class OptimisedWaypoint` (part_002 unit 1). -/
structure OptimisedWaypoint (K : Type) where
  waypoint : Waypoint
  best_cost : K
  accrued_penalty : ℕ
deriving DecidableEq

/-- `invariant_cost()`: `accrued_penalty + best_cost`. -/
def inv (ow : OptimisedWaypoint K) : K := ofn ow.accrued_penalty + ow.best_cost

variable (T : ℤ → ℤ → K)

/-- `cost_for(visited)`: `visited.time_to(waypoint) + best_cost +
accrued_penalty + delay`. -/
def cost_for (ow : OptimisedWaypoint K) (visited : Waypoint) : K :=
  T (visited.x - ow.waypoint.x) (visited.y - ow.waypoint.y) +
    ow.best_cost + ofn ow.accrued_penalty + ofn 10

/-- `multiset::emplace` at the upper bound of equal `invariant_cost` keys. -/
def emplace (c : OptimisedWaypoint K) :
    List (OptimisedWaypoint K) → List (OptimisedWaypoint K)
  | [] => [c]
  | h :: t => if inv c < inv h then c :: h :: t else h :: emplace c t

variable (tmaxC tminC : K)

/-- `prune(opt_waypoints)` (part_002 unit 1): same shape as main.cpp unit 1. -/
def prune (l : List (OptimisedWaypoint K)) : List (OptimisedWaypoint K) :=
  match l with
  | [] => []
  | h :: t =>
      dropTrailing (fun c => decide (inv h + tmaxC - tminC < inv c)) (h :: t)

/-- `get_best_cost(visited, opt_waypoints)` (part_002 unit 1). -/
def get_best_cost (visited : Waypoint) (l : List (OptimisedWaypoint K)) :
    Option K :=
  match l with
  | [] => none
  | c :: rest => some (rest.foldl (fun acc ow => min acc (cost_for T ow visited))
      (cost_for T c visited))

/-- The per-step penalty rebuild: every live candidate re-accrues the
visited waypoint's penalty (the source copies the multiset element by
element into the spare multiset with `accrued_penalty + penalty_delta`,
which preserves the order since all keys shift by the same amount). -/
def shiftAll (p : ℕ) (l : List (OptimisedWaypoint K)) :
    List (OptimisedWaypoint K) :=
  l.map (fun c => ⟨c.waypoint, c.best_cost, c.accrued_penalty + p⟩)

/-- Loop body of `solve` (part_002 unit 1); at the origin the best cost is
returned with no penalty correction. -/
def solveGo (set : List (OptimisedWaypoint K)) : List Waypoint → Option K
  | [] => get_best_cost T headW set
  | v :: rest =>
      match get_best_cost T v set with
      | none => none
      | some best =>
          solveGo (prune tmaxC tminC
            (emplace ⟨v, best, 0⟩ (shiftAll v.penalty set))) rest

/-- `solve(waypoints)` (part_002 unit 1). -/
def solve (ws : List Waypoint) : Option K :=
  solveGo T tmaxC tminC [⟨tailW, 0, 0⟩] ws.reverse

end P2

namespace P4

/-!
## part_004: the quadratic reference dynamic program

Faithful embedding of `src/unnamed/part_004`: each waypoint's `best_cost`
is the minimum over all later waypoints `skipto` of
`time_to(skipto) + delay + (penalties of the skipped waypoints in between)
+ skipto.best_cost`, with the early exit `if (penalties > best_cost) break`.
The `best_cost` of the final sentinel is read before ever being assigned in
the source (an uninitialised double); it is embedded as 0, the value the
backward recurrence intends. -/

variable {K : Type} [CostAlg K]

variable (T : ℤ → ℤ → K)

/-- The inner loop of `Waypoint::set_best_cost` after its first iteration:
fold over the remaining `(skipto, best_cost)` rows, carrying the running
minimum and the accrued `penalties`, stopping early when
`penalties > best_cost`. -/
def bestFromGo (visited : Waypoint) :
    List (Waypoint × K) → K → K → K
  | [], best, _ => best
  | (w, bw) :: rest, best, penalties =>
      let cost := T (visited.x - w.x) (visited.y - w.y) + penalties + bw
      let best2 := if cost < best then cost else best
      let pen2 := penalties + ofn w.penalty
      if best2 < pen2 then best2 else bestFromGo visited rest best2 pen2

/-- `Waypoint::set_best_cost(skipto, end)` (part_004): `penalties` starts at
`delay`; the fold starts from `numeric_limits<double>::max()`, so the first
row always becomes the initial minimum (embedded by special-casing it);
`none` on an empty row list (cannot arise: the sentinel row is always
there). -/
def set_best_cost (visited : Waypoint) :
    List (Waypoint × K) → Option K
  | [] => none
  | (w, bw) :: rest =>
      let cost1 := T (visited.x - w.x) (visited.y - w.y) + ofn 10 + bw
      let pen1 := ofn 10 + ofn w.penalty
      some (if cost1 < pen1 then cost1 else bestFromGo T visited rest cost1 pen1)

/-- The table of `(waypoint, best_cost)` rows built backwards by `solve`'s
outer loop (the last row is the terminus sentinel with `best_cost` 0). -/
def bestTable : List Waypoint → List (Waypoint × K) :=
  List.foldr
    (fun v acc =>
      match acc with
      | [] => [(v, 0)]
      | e :: t => (v, (set_best_cost T v (e :: t)).getD 0) :: e :: t)
    []

/-- `solve(waypoints)` (part_004): run the backward pass over
`[origin, w1, ..., wn, terminus]` and return the origin's `best_cost`. -/
def solve (ws : List Waypoint) : Option K :=
  match bestTable T (headW :: (ws ++ [tailW])) with
  | [] => none
  | (_, b) :: _ => some b

end P4

/-!
## Concrete cases

All coordinate deltas evaluated by the engines on these cases have squared
norm `2 * k ^ 2`, so `timeC` is exactly the source's Euclidean travel time
on them (`timeC_val_exact`), and every run below is exact arithmetic in
`Cost`: e.g. `Cost.mk 43 250` is `43 + 125 * sqrt 2 ≈ 219.777`.
-/

/-- Input case refuting the pruning safety of the part_003 engine:
waypoints `(100,100)` penalty 200, `(7,49)` penalty 13, `(7,49)` penalty
120.  The optimum visits all three (cost `40 + 125 * sqrt 2 ≈ 216.777`);
the engine's per-waypoint `cost_min` bound (distance to the nearest corner)
wrongly rejects the second waypoint as a candidate, losing the
zero-distance hop to the third, and returns `43 + 125 * sqrt 2 ≈ 219.777`. -/
def caseC1 : List Waypoint := [⟨100, 100, 200⟩, ⟨7, 49, 13⟩, ⟨7, 49, 120⟩]

/-- C1: the pruned candidate-set engine (part_003 `solve`) does not return
the same value as the quadratic reference dynamic program (part_004 `solve`)
on every in-bounds case: on `caseC1` they differ by exactly 3, far beyond
any floating-point tolerance.  (The claim's universal agreement statement is
therefore false of the code; the spec's own pruning-safety property is the
intended behaviour, so this is a defect of the pruned engine.) -/
theorem c1_pruned_vs_reference_diverges :
    P3.solve timeC caseC1 = some ⟨43, 250⟩ ∧
      P4.solve timeC caseC1 = some ⟨40, 250⟩ ∧
      P3.solve timeC caseC1 ≠ P4.solve timeC caseC1 := by
  refine ⟨by decide, by decide, ?_⟩
  intro h
  simp only [show P3.solve timeC caseC1 = some ⟨43, 250⟩ from by decide,
    show P4.solve timeC caseC1 = some ⟨40, 250⟩ from by decide] at h
  exact absurd h (by decide)

/-- The candidate the part_003 engine builds for waypoint `(50,50)` with
penalty 0 when it is the first intermediate waypoint: its `cost_best` is
the engine's own `get_best_cost` over the initial sentinel heap. -/
def c2cand : P3.OptimisedWaypoint Cost :=
  P3.OptimisedWaypoint.make timeC ⟨50, 50, 0⟩ (timeC 50 50 + ofn 10)

/-- C2 counterexample: `cost_min` is not a lower bound on `cost_via(v)` for
arbitrary later in-bounds waypoints.  For the candidate at `(50,50)` the
bound `cost_min` uses the distance to the nearest corner (`25 * sqrt 2`),
but the hop from the later in-bounds waypoint `(48,48)` costs only
`sqrt 2`, so `cost_to` falls strictly below `cost_min`. -/
theorem c2_cost_min_not_lower_bound :
    P3.get_best_cost timeC ⟨50, 50, 0⟩ [P3.OptimisedWaypoint.make timeC headW 0]
        = some (timeC 50 50 + ofn 10) ∧
      P3.cost_to timeC c2cand ⟨48, 48, 0⟩ < c2cand.cost_min := by
  constructor
  · decide
  · decide

/-- C3 counterexample: the spec's reading (penalty charged when visiting,
avoided when skipping) predicts, for the single waypoint `(50,50)` with
penalty 200, the result `min(t(0,0 → 50,50) + t(50,50 → 100,100) + 10 + 200,
t(0,0 → 100,100)) = 50 * sqrt 2 ≈ 70.711`; the engine instead returns
`20 + 50 * sqrt 2 ≈ 90.711` — the cost of visiting the waypoint with NO
penalty term, because the code charges the penalty when a waypoint is
skipped, not when it is visited. -/
theorem c3_penalty_on_visit_refuted :
    P3.solve timeC [⟨50, 50, 200⟩] = some ⟨20, 100⟩ ∧
      min (timeC 50 50 + timeC 50 50 + ofn 10 + ofn 200) (timeC 100 100)
        = (⟨0, 100⟩ : Cost) ∧
      P3.solve timeC [⟨50, 50, 200⟩] ≠ some (⟨0, 100⟩ : Cost) := by
  refine ⟨by decide, by decide, ?_⟩
  intro h
  simp only [show P3.solve timeC [⟨50, 50, 200⟩] = some ⟨20, 100⟩ from by decide] at h
  exact absurd h (by decide)

/-- C4 counterexample: on the concrete scenario case `[(50,50,0)]` the
engine (part_000 `solve`) returns `10 + 50 * sqrt 2 ≈ 80.711`, not the
claimed `70.711 = 50 * sqrt 2 = time((0,0) → (100,100))`: the fixed delay is
charged on every hop, including the direct corner-to-corner skip. -/
theorem c4_concrete_scenario_refuted :
    P0.solve timeC [⟨50, 50, 0⟩] = some ⟨10, 100⟩ ∧
      P0.solve timeC [⟨50, 50, 0⟩] ≠ some (timeC 100 100) := by
  refine ⟨by decide, ?_⟩
  intro h
  simp only [show P0.solve timeC [⟨50, 50, 0⟩] = some ⟨10, 100⟩ from by decide] at h
  exact absurd h (by decide)

/-- C4 amended: on the scenario case the engine returns exactly
`time((0,0) → (100,100)) + 10 ≈ 80.711` (the skip option, delay included),
which beats the visit option `2 * time((0,0) → (50,50)) + 2 * 10 ≈ 90.711`. -/
theorem c4_amended_engine_value :
    P0.solve timeC [⟨50, 50, 0⟩] = some (timeC 100 100 + ofn 10) ∧
      timeC 100 100 + ofn 10 < timeC 50 50 + timeC 50 50 + ofn 10 + ofn 10 := by
  constructor
  · decide
  · decide

/-- C5 counterexample: on the empty case the engine returns
`10 + 50 * sqrt 2 ≈ 80.711`, not the bare corner-to-corner travel time
`50 * sqrt 2 ≈ 70.711`: the fixed delay for the single direct hop is
included. -/
theorem c5_zero_waypoints_refuted :
    P0.solve timeC [] = some ⟨10, 100⟩ ∧
      P0.solve timeC [] ≠ some (timeC 100 100) := by
  refine ⟨by decide, ?_⟩
  intro h
  simp only [show P0.solve timeC ([] : List Waypoint) = some ⟨10, 100⟩ from by decide] at h
  exact absurd h (by decide)

/-- C7 counterexample: part_003's `prune` can empty a non-empty heap.  The
threshold `-180 + 100 * sqrt 2 ≈ -38.58` is exactly the `cost_max` of the
candidate the engine builds for `(100,100)` penalty 200 in `caseC1` (third
conjunct); pruning the initial heap, which holds only the origin sentinel
with `cost_min = 10`, against it removes every element — including the
lowest-`cost_min` one. -/
theorem c7_prune_can_empty_heap :
    P3.prune (⟨-180, 200⟩ : Cost) [P3.OptimisedWaypoint.make timeC headW 0] = [] ∧
      [P3.OptimisedWaypoint.make timeC headW 0] ≠
        ([] : List (P3.OptimisedWaypoint Cost)) ∧
      P3.cost_max timeC
          (P3.OptimisedWaypoint.make timeC ⟨100, 100, 200⟩ (timeC 100 100 + ofn 10))
        = (⟨-180, 200⟩ : Cost) := by
  refine ⟨by decide, by decide, by decide⟩

/-!
## Minimum-fold lemmas

`get_best_cost` in every unit is a fold of `min` over the candidate
collection; these lemmas characterise it as the true minimum.
-/

section FoldMin

variable {α K : Type} [LinearOrder K]

theorem foldl_min_le_init (f : α → K) :
    ∀ (l : List α) (init : K), l.foldl (fun acc x => min acc (f x)) init ≤ init := by
  intro l
  induction l with
  | nil => intro init; simp
  | cons h t ih =>
    intro init
    simp only [List.foldl_cons]
    exact le_trans (ih (min init (f h))) (min_le_left _ _)

theorem foldl_min_le_mem (f : α → K) :
    ∀ (l : List α) (init : K), ∀ x ∈ l,
      l.foldl (fun acc y => min acc (f y)) init ≤ f x := by
  intro l
  induction l with
  | nil =>
    intro init x hx
    cases hx
  | cons h t ih =>
    intro init x hx
    rcases List.mem_cons.mp hx with rfl | hx
    · simp only [List.foldl_cons]
      exact le_trans (foldl_min_le_init f t (min init (f x))) (min_le_right _ _)
    · simp only [List.foldl_cons]
      exact ih (min init (f h)) x hx

theorem foldl_min_attained (f : α → K) :
    ∀ (l : List α) (init : K),
      l.foldl (fun acc x => min acc (f x)) init = init ∨
        ∃ x ∈ l, l.foldl (fun acc y => min acc (f y)) init = f x := by
  intro l
  induction l with
  | nil => intro init; simp
  | cons h t ih =>
    intro init
    simp only [List.foldl_cons]
    rcases ih (min init (f h)) with heq | ⟨x, hx, heq⟩
    · rcases min_cases init (f h) with ⟨hmin, _⟩ | ⟨hmin, _⟩
      · exact Or.inl (heq.trans hmin)
      · exact Or.inr ⟨h, List.mem_cons_self h t, heq.trans hmin⟩
    · exact Or.inr ⟨x, List.mem_cons_of_mem h hx, heq⟩

end FoldMin

/-- `get_best_cost` (part_000 shape) on a non-empty collection returns the
minimum of `cost_from` over every element: a value that is a lower bound of
all of them and is attained by one of them. -/
theorem P0.get_best_cost_min_over_map {K : Type} [CostAlg K] (T : ℤ → ℤ → K)
    (v : Waypoint) (l : List (P0.OptimisedWaypoint K)) (hne : l ≠ []) :
    ∃ m, P0.get_best_cost T v l = some m ∧
      (∀ c ∈ l, m ≤ P0.cost_from T c v) ∧ (∃ c ∈ l, m = P0.cost_from T c v) := by
  match l, hne with
  | c :: rest, _ =>
    refine ⟨_, rfl, ?_, ?_⟩
    · intro d hd
      rcases List.mem_cons.mp hd with rfl | hd
      · exact foldl_min_le_init (fun ow => P0.cost_from T ow v) rest _
      · exact foldl_min_le_mem (fun ow => P0.cost_from T ow v) rest _ d hd
    · rcases foldl_min_attained (fun ow => P0.cost_from T ow v) rest
          (P0.cost_from T c v) with heq | ⟨x, hx, heq⟩
      · exact ⟨c, List.mem_cons_self c rest, heq⟩
      · exact ⟨x, List.mem_cons_of_mem c hx, heq⟩

/-- `get_best_cost` (part_003 shape) on a non-empty heap: same minimum
characterisation over `cost_to`. -/
theorem P3.get_best_cost_min_over_heap {K : Type} [CostAlg K] (T : ℤ → ℤ → K)
    (v : Waypoint) (l : List (P3.OptimisedWaypoint K)) (hne : l ≠ []) :
    ∃ m, P3.get_best_cost T v l = some m ∧
      (∀ c ∈ l, m ≤ P3.cost_to T c v) ∧ (∃ c ∈ l, m = P3.cost_to T c v) := by
  match l, hne with
  | c :: rest, _ =>
    refine ⟨_, rfl, ?_, ?_⟩
    · intro d hd
      rcases List.mem_cons.mp hd with rfl | hd
      · exact foldl_min_le_init (fun ow => P3.cost_to T ow v) rest _
      · exact foldl_min_le_mem (fun ow => P3.cost_to T ow v) rest _ d hd
    · rcases foldl_min_attained (fun ow => P3.cost_to T ow v) rest
          (P3.cost_to T c v) with heq | ⟨x, hx, heq⟩
      · exact ⟨c, List.mem_cons_self c rest, heq⟩
      · exact ⟨x, List.mem_cons_of_mem c hx, heq⟩

/-- C8: `min_cost_via` / `get_best_cost` applied to a non-empty candidate
set returns exactly the minimum over all live candidates of
`cost_via(visited)` — it scans every candidate, the result bounds each of
them from below and equals one of them — and applied to an empty set it
yields no numeric result (the source's `assert(best_cost < max())`
programming-error signal, embedded as `none`). -/
theorem c8_get_best_cost_spec :
    (∀ (K : Type) [inst : CostAlg K] (T : ℤ → ℤ → K) (v : Waypoint)
        (l : List (P0.OptimisedWaypoint K)), l ≠ [] →
        ∃ m, P0.get_best_cost T v l = some m ∧
          (∀ c ∈ l, m ≤ P0.cost_from T c v) ∧
          (∃ c ∈ l, m = P0.cost_from T c v)) ∧
      (∀ (K : Type) [inst : CostAlg K] (T : ℤ → ℤ → K) (v : Waypoint),
        P0.get_best_cost T v ([] : List (P0.OptimisedWaypoint K)) = none) := by
  constructor
  · intro K inst T v l hne
    exact P0.get_best_cost_min_over_map T v l hne
  · intro K inst T v
    rfl

/-- Witness for C8 at a concrete input: the sentinel-only map queried from
the terminus. -/
theorem c8_get_best_cost_spec_witness :
    ∃ m, P0.get_best_cost timeC tailW [P0.OptimisedWaypoint.make timeC headW 0]
        = some m ∧
      (∀ c ∈ [P0.OptimisedWaypoint.make timeC headW 0],
        m ≤ P0.cost_from timeC c tailW) ∧
      (∃ c ∈ [P0.OptimisedWaypoint.make timeC headW 0],
        m = P0.cost_from timeC c tailW) :=
  c8_get_best_cost_spec.1 Cost timeC tailW
    [P0.OptimisedWaypoint.make timeC headW 0] (by simp)

/-- C5 amended (general form): on a case with zero intermediate waypoints
the part_000 engine returns exactly the direct corner-to-corner travel time
plus the fixed per-stop delay, for any cost domain and travel-time
function. -/
theorem c5_amended_empty_case (K : Type) [CostAlg K] (T : ℤ → ℤ → K) :
    P0.solve T [] = some (T 100 100 + ofn 10) := by
  unfold P0.solve P0.solveGo P0.get_best_cost P0.cost_from P0.time_to
    P0.OptimisedWaypoint.make
  simp [headW, tailW, CostAlg.ofn_zero]

/-- For an in-bounds coordinate, the squared distance to the nearest edge
bounds the squared distance to either extreme coordinate 0 or 100. -/
theorem coord_min_sq_le (x c : ℤ) (h0 : 0 ≤ x) (h1 : x ≤ 100)
    (hc : c = 0 ∨ c = 100) :
    P3.coord_min x * P3.coord_min x ≤ (x - c) * (x - c) := by
  unfold P3.coord_min
  have h3 : 0 ≤ min (100 - x) x := le_min (by omega) h0
  rcases hc with rfl | rfl
  · have h2 : min (100 - x) x ≤ x := min_le_right _ _
    nlinarith
  · have h2 : min (100 - x) x ≤ 100 - x := min_le_left _ _
    nlinarith

/-- The best-case hop delta of part_003 never has larger squared norm than
the delta to any corner of the square. -/
theorem normSq_coord_min_le_corner (w v : Waypoint) (hw : w.sane)
    (hvx : v.x = 0 ∨ v.x = 100) (hvy : v.y = 0 ∨ v.y = 100) :
    normSq (P3.coord_min w.x) (P3.coord_min w.y) ≤
      normSq (w.x - v.x) (w.y - v.y) := by
  obtain ⟨hx0, hx1, hy0, hy1⟩ := hw
  unfold normSq
  exact add_le_add (coord_min_sq_le w.x v.x hx0 hx1 hvx)
    (coord_min_sq_le w.y v.y hy0 hy1 hvy)

/-- `timeC` is monotone in the squared distance of the delta. -/
theorem timeC_mono (d1x d1y d2x d2y : ℤ)
    (h : normSq d1x d1y ≤ normSq d2x d2y) :
    timeC d1x d1y ≤ timeC d2x d2y := by
  unfold timeC
  have h1 : (normSq d1x d1y).toNat / 2 ≤ (normSq d2x d2y).toNat / 2 :=
    Nat.div_le_div_right (Int.toNat_le_toNat h)
  have h2 : isqrtN ((normSq d1x d1y).toNat / 2) ≤
      isqrtN ((normSq d2x d2y).toNat / 2) := by
    rw [isqrtN_eq_sqrt, isqrtN_eq_sqrt]
    exact Nat.sqrt_le_sqrt h1
  rw [Cost.le_iff_val']
  simp only [Cost.val]
  have hs := Cost.sqrt_two_pos
  have h2' : ((isqrtN ((normSq d1x d1y).toNat / 2) : ℕ) : ℝ) ≤
      ((isqrtN ((normSq d2x d2y).toNat / 2) : ℕ) : ℝ) := by exact_mod_cast h2
  push_cast
  nlinarith

/-- C2 amended: a candidate's `cost_min` is a lower bound on its
`cost_via(v)` for `v` at any corner of the square (in particular the
terminus), rather than for arbitrary later waypoints: the best-case hop
bound `min(x, E-x), min(y, E-y)` is the distance to the nearest corner. -/
theorem c2_amended_corner_bound (K : Type) [CostAlg K] (T : ℤ → ℤ → K)
    (hmono : ∀ d1x d1y d2x d2y : ℤ,
      normSq d1x d1y ≤ normSq d2x d2y → T d1x d1y ≤ T d2x d2y)
    (w : Waypoint) (hw : w.sane) (b : K) (v : Waypoint)
    (hvx : v.x = 0 ∨ v.x = 100) (hvy : v.y = 0 ∨ v.y = 100) :
    (P3.OptimisedWaypoint.make T w b).cost_min ≤
      P3.cost_to T (P3.OptimisedWaypoint.make T w b) v := by
  unfold P3.OptimisedWaypoint.make P3.cost_to P3.wtime_min P3.time_to
  simp only
  have := hmono (P3.coord_min w.x) (P3.coord_min w.y) (w.x - v.x) (w.y - v.y)
    (normSq_coord_min_le_corner w v hw hvx hvy)
  exact add_le_add_right this _

/-- Witness for C2 amended: the candidate at `(50,50)` and the terminus
corner. -/
theorem c2_amended_corner_bound_witness :
    (P3.OptimisedWaypoint.make timeC ⟨50, 50, 0⟩ 0).cost_min ≤
      P3.cost_to timeC (P3.OptimisedWaypoint.make timeC ⟨50, 50, 0⟩ 0) tailW :=
  c2_amended_corner_bound Cost timeC timeC_mono ⟨50, 50, 0⟩ (by decide) 0 tailW
    (Or.inr rfl) (Or.inr rfl)

/-- For an in-bounds coordinate, the squared distance to the extreme 100 is
bounded by the squared worst-case coordinate delta. -/
theorem coord_max_sq_ge (x : ℤ) (h0 : 0 ≤ x) (h1 : x ≤ 100) :
    (x - 100) * (x - 100) ≤ P3.coord_max x * P3.coord_max x := by
  unfold P3.coord_max
  have h2 : 100 - x ≤ max (100 - x) x := le_max_left _ _
  have h3 : 0 ≤ max (100 - x) x := le_trans (by omega) h2
  nlinarith

/-- The delta from an in-bounds waypoint to the terminus corner never has
larger squared norm than part_003's worst-case hop delta. -/
theorem normSq_tail_le_coord_max (w : Waypoint) (hw : w.sane) :
    normSq (w.x - 100) (w.y - 100) ≤
      normSq (P3.coord_max w.x) (P3.coord_max w.y) := by
  obtain ⟨hx0, hx1, hy0, hy1⟩ := hw
  unfold normSq
  exact add_le_add (coord_max_sq_ge w.x hx0 hx1) (coord_max_sq_ge w.y hy0 hy1)

/-- C3 amended: for a case with a single intermediate waypoint `w` the
part_003 engine returns the minimum of a VISIT option
(`t(origin→w) + t(w→terminus)` plus two per-stop delays, no penalty term)
and a SKIP option (`t(origin→terminus)` plus one delay PLUS `w`'s penalty):
the penalty is incurred when the waypoint is skipped and avoided when it is
visited.  Consequently, for sufficiently large penalty it is VISITING that
becomes strictly cheaper, and the engine returns the visit cost. -/
theorem c3_amended_penalty_on_skip (K : Type) [CostAlg K] (T : ℤ → ℤ → K)
    (hmono : ∀ d1x d1y d2x d2y : ℤ,
      normSq d1x d1y ≤ normSq d2x d2y → T d1x d1y ≤ T d2x d2y)
    (w : Waypoint) (hw : w.sane) :
    P3.solve T [w] = some (min
        (T (0 - w.x) (0 - w.y) + T (w.x - 100) (w.y - 100) + ofn 10 + ofn 10)
        (T (0 - 100) (0 - 100) + ofn 10 + ofn w.penalty)) ∧
      (T (0 - w.x) (0 - w.y) + T (w.x - 100) (w.y - 100) + ofn 10 + ofn 10 <
          T (0 - 100) (0 - 100) + ofn 10 + ofn w.penalty →
        P3.solve T [w] = some (T (0 - w.x) (0 - w.y) + T (w.x - 100) (w.y - 100)
          + ofn 10 + ofn 10)) := by
  have hz : (ofn 0 : K) = 0 := CostAlg.ofn_zero
  set visitC : K :=
    T (0 - w.x) (0 - w.y) + T (w.x - 100) (w.y - 100) + ofn 10 + ofn 10 with hvisit
  set skipC : K := T (0 - 100) (0 - 100) + ofn 10 + ofn w.penalty with hskip
  set hd := P3.OptimisedWaypoint.make T headW 0 with hhd
  set best : K := T (0 - w.x) (0 - w.y) + (0 - ofn 0 + ofn 10) with hbest
  have hgb : P3.get_best_cost T w [hd] = some best := rfl
  set new := P3.OptimisedWaypoint.make T w best with hnew
  -- the result produced from the two-candidate heap [hd, new]
  have hcommon : ∀ acc cmb, P3.solveGo T [hd, new] acc cmb (0 + w.penalty) []
      = some (min visitC skipC) := by
    intro acc cmb
    show some (min (P3.cost_to T hd tailW) (P3.cost_to T new tailW)
      + ofn (0 + w.penalty)) = some (min visitC skipC)
    have h1 : P3.cost_to T hd tailW + ofn (0 + w.penalty) = skipC := by
      show T (0 - 100) (0 - 100) + (0 - ofn 0 + ofn 10) + ofn (0 + w.penalty) = skipC
      rw [hz, hskip]
      have : (0 + w.penalty) = w.penalty := by omega
      rw [this]
      abel
    have h2 : P3.cost_to T new tailW + ofn (0 + w.penalty) = visitC := by
      show T (w.x - 100) (w.y - 100) + (best - ofn w.penalty + ofn 10)
          + ofn (0 + w.penalty) = visitC
      rw [hbest, hz, hvisit]
      have : (0 + w.penalty) = w.penalty := by omega
      rw [this]
      abel
    rw [← min_add_add_right, min_comm, h1, h2]
  have hmain : P3.solve T [w] = some (min visitC skipC) := by
    unfold P3.solve
    rw [← hhd]
    show P3.solveGo T [hd] none hd.cost_min 0 [w] = _
    rw [P3.solveGo]
    rw [if_pos hw, hgb]
    simp only [P3.accGe, if_true]
    by_cases hle : new.cost_min ≤ hd.cost_min
    · rw [if_pos hle]
      by_cases hkeep : hd.cost_min ≤ P3.cost_max T new
      · have hprune : P3.prune (P3.cost_max T new) [hd] = [hd] := by
          unfold P3.prune
          simp [hkeep]
        rw [hprune]
        exact hcommon _ _
      · have hprune : P3.prune (P3.cost_max T new) [hd] = [] := by
          unfold P3.prune
          simp [hkeep]
        rw [hprune]
        -- only the new candidate survives; show the visit option also wins the min
        show P3.solveGo T [new] (some (P3.cost_max T new)) new.cost_min
            (0 + w.penalty) [] = _
        have hres : P3.solveGo T [new] (some (P3.cost_max T new)) new.cost_min
            (0 + w.penalty) [] = some (P3.cost_to T new tailW + ofn (0 + w.penalty)) := rfl
        rw [hres]
        have h2 : P3.cost_to T new tailW + ofn (0 + w.penalty) = visitC := by
          show T (w.x - 100) (w.y - 100) + (best - ofn w.penalty + ofn 10)
              + ofn (0 + w.penalty) = visitC
          rw [hbest, hz, hvisit]
          have : (0 + w.penalty) = w.penalty := by omega
          rw [this]
          abel
        rw [h2]
        -- pruning the sentinel implies the visit option beats the skip option
        push_neg at hkeep
        have hhdmin : hd.cost_min = T 0 0 + (0 - ofn 0 + ofn 10) := by
          rw [hhd]
          show P3.wtime_min T headW + (0 - ofn headW.penalty + ofn 10) = _
          unfold P3.wtime_min P3.coord_min headW
          norm_num
        have hcmax : P3.cost_max T new =
            T (P3.coord_max w.x) (P3.coord_max w.y) + (best - ofn w.penalty + ofn 10) := rfl
        have hb1 : T (w.x - 100) (w.y - 100) ≤ T (P3.coord_max w.x) (P3.coord_max w.y) :=
          hmono _ _ _ _ (normSq_tail_le_coord_max w hw)
        have hb2 : T 0 0 ≤ T (0 - 100) (0 - 100) := by
          apply hmono
          unfold normSq
          norm_num
        have hvs : visitC ≤ skipC := by
          rw [hhdmin, hcmax] at hkeep
          rw [hvisit, hskip]
          have hx : T (w.x - 100) (w.y - 100) + (best - ofn w.penalty + ofn 10) <
              T 0 0 + (0 - ofn 0 + ofn 10) :=
            lt_of_le_of_lt (add_le_add_right hb1 _) hkeep
          rw [hbest, hz] at hx
          have := add_le_add_right (le_of_lt (lt_of_lt_of_le hx
            (add_le_add_right hb2 _))) (ofn w.penalty : K)
          calc T (0 - w.x) (0 - w.y) + T (w.x - 100) (w.y - 100) + ofn 10 + ofn 10
              = T (w.x - 100) (w.y - 100) + (T (0 - w.x) (0 - w.y) + (0 - 0 + ofn 10)
                - ofn w.penalty + ofn 10) + ofn w.penalty := by abel
            _ ≤ T (0 - 100) (0 - 100) + (0 - 0 + ofn 10) + ofn w.penalty := this
            _ = T (0 - 100) (0 - 100) + ofn 10 + ofn w.penalty := by abel
        rw [min_eq_left hvs]
    · rw [if_neg hle]
      exact hcommon _ _
  refine ⟨hmain, fun hlt => ?_⟩
  rw [hmain, min_eq_left (le_of_lt hlt)]

/-- Witness for C3 amended: waypoint `(50,50)` with penalty 200 — visiting
(`20 + 50 * sqrt 2 ≈ 90.711`) strictly beats skipping
(`210 + 50 * sqrt 2 ≈ 280.711`), and the engine returns the visit cost. -/
theorem c3_amended_penalty_on_skip_witness :
    P3.solve timeC [⟨50, 50, 200⟩] = some (min
        (timeC (0 - 50) (0 - 50) + timeC (50 - 100) (50 - 100) + ofn 10 + ofn 10)
        (timeC (0 - 100) (0 - 100) + ofn 10 + ofn 200)) ∧
      (timeC (0 - 50) (0 - 50) + timeC (50 - 100) (50 - 100) + ofn 10 + ofn 10 <
          timeC (0 - 100) (0 - 100) + ofn 10 + ofn 200 →
        P3.solve timeC [⟨50, 50, 200⟩] = some (timeC (0 - 50) (0 - 50)
          + timeC (50 - 100) (50 - 100) + ofn 10 + ofn 10)) :=
  c3_amended_penalty_on_skip Cost timeC timeC_mono ⟨50, 50, 200⟩ (by decide)

/-- The part_003 loop never queries an empty heap: starting from a
non-empty heap of candidates it always produces a result on sane input.
Pruning may transiently empty the heap, but the freshly accepted candidate
is pushed before the next query. -/
theorem P3.solveGo_total {K : Type} [CostAlg K] (T : ℤ → ℤ → K) :
    ∀ (ws : List Waypoint) (heap : List (P3.OptimisedWaypoint K))
      (acc : Option K) (cmb : K) (total : ℕ),
      heap ≠ [] → (∀ w ∈ ws, w.sane) →
      ∃ v, P3.solveGo T heap acc cmb total ws = some v := by
  intro ws
  induction ws with
  | nil =>
    intro heap acc cmb total hne _
    obtain ⟨m, hm, _, _⟩ := P3.get_best_cost_min_over_heap T tailW heap hne
    exact ⟨m + ofn total, by rw [P3.solveGo, hm]; rfl⟩
  | cons v rest ih =>
    intro heap acc cmb total hne hsane
    have hv : v.sane := hsane v (List.mem_cons_self v rest)
    have hrest : ∀ w ∈ rest, w.sane := fun w hw => hsane w (List.mem_cons_of_mem v hw)
    obtain ⟨m, hm, _, _⟩ := P3.get_best_cost_min_over_heap T v heap hne
    rw [P3.solveGo, if_pos hv, hm]
    simp only
    by_cases hacc : P3.accGe acc (P3.OptimisedWaypoint.make T v m).cost_min
    · rw [if_pos hacc]
      by_cases hcmb : (P3.OptimisedWaypoint.make T v m).cost_min ≤ cmb
      · rw [if_pos hcmb]
        exact ih _ _ _ _ (by simp) hrest
      · rw [if_neg hcmb]
        exact ih _ _ _ _ (by simp) hrest
    · rw [if_neg hacc]
      exact ih _ _ _ _ hne hrest

/-- part_000's clamped best-case coordinate delta is bounded by the
worst-case one, for in-bounds coordinates. -/
theorem coord_min0_le_coord_max (x : ℤ) (h0 : 0 ≤ x) (h1 : x ≤ 100) :
    P0.coord_min x * P0.coord_min x ≤ P0.coord_max x * P0.coord_max x := by
  unfold P0.coord_min P0.coord_max
  have h2 : max 1 (min (100 - x) x) ≤ max (100 - x) x := by
    rcases le_or_lt x 50 with h | h
    · have : (1 : ℤ) ≤ 100 - x := by omega
      have hmm : min (100 - x) x ≤ 100 - x := min_le_left _ _
      have := le_max_left (100 - x) x
      omega
    · have : (1 : ℤ) ≤ x := by omega
      have hmm : min (100 - x) x ≤ x := min_le_right _ _
      have := le_max_right (100 - x) x
      omega
  have h3 : (0 : ℤ) ≤ max 1 (min (100 - x) x) := le_trans (by omega) (le_max_left _ _)
  nlinarith

/-- C7 amended: (a) the part_003 engine never evaluates a cost query on an
empty candidate set — on sane input `solve` always yields a value, because
although `prune` may transiently empty the heap, the accepted candidate is
pushed before any further `get_best_cost`; (b) the multimap variants'
`prune` (part_000 / main.cpp, threshold = the freshly-inserted front
candidate's own `cost_max`) always retains the lowest-`cost_min` candidate:
its `cost_min` never exceeds its `cost_max` when the travel-time function
is monotone in the squared delta. -/
theorem c7_amended_no_empty_query :
    (∀ (K : Type) [inst : CostAlg K] (T : ℤ → ℤ → K) (ws : List Waypoint),
      (∀ w ∈ ws, w.sane) → ∃ v, P3.solve T ws = some v) ∧
      (∀ (K : Type) [inst : CostAlg K] (T : ℤ → ℤ → K),
        (∀ d1x d1y d2x d2y : ℤ,
          normSq d1x d1y ≤ normSq d2x d2y → T d1x d1y ≤ T d2x d2y) →
        ∀ (w : Waypoint), w.sane → ∀ (b : K) (t : List (P0.OptimisedWaypoint K)),
          P0.prune (P0.cost_max T (P0.OptimisedWaypoint.make T w b))
            (P0.OptimisedWaypoint.make T w b :: t) ≠ none) := by
  constructor
  · intro K inst T ws hsane
    exact P3.solveGo_total T ws _ none _ 0 (by simp) hsane
  · intro K inst T hmono w hw b t
    have hb : (P0.OptimisedWaypoint.make T w b).cost_min ≤
        P0.cost_max T (P0.OptimisedWaypoint.make T w b) := by
      show P0.wtime_min T w + _ ≤ P0.wtime_max T w + _
      refine add_le_add_right ?_ _
      apply hmono
      unfold normSq
      obtain ⟨hx0, hx1, hy0, hy1⟩ := hw
      exact add_le_add (coord_min0_le_coord_max w.x hx0 hx1)
        (coord_min0_le_coord_max w.y hy0 hy1)
    simp only [P0.prune]
    rw [if_pos hb]
    exact Option.some_ne_none _

/-- Witness for C7 amended: the engine completes on `caseC1` (part a), and
the part_000 prune of a sentinel-front map retains its front (part b). -/
theorem c7_amended_no_empty_query_witness :
    (∃ v, P3.solve timeC caseC1 = some v) ∧
      P0.prune (P0.cost_max timeC (P0.OptimisedWaypoint.make timeC ⟨50, 50, 0⟩ 0))
          (P0.OptimisedWaypoint.make timeC ⟨50, 50, 0⟩ 0
            :: ([] : List (P0.OptimisedWaypoint Cost))) ≠ none :=
  ⟨c7_amended_no_empty_query.1 Cost timeC caseC1 (by decide),
    c7_amended_no_empty_query.2 Cost timeC timeC_mono ⟨50, 50, 0⟩ (by decide) 0 []⟩

/-- Duplicate-coordinate case: two waypoints at `(4, 2)`, the coordinates
that `sample_input_large.txt` duplicates according to the source comments. -/
def caseC9 : List Waypoint := [⟨4, 2, 5⟩, ⟨4, 2, 7⟩]

/-- C9: on every in-bounds case, even one containing two waypoints with
identical coordinates, the part_003 engine terminates with a value (its
sanity checks pass and no cost query sees an empty set), and every delta
between sane waypoints satisfies the bounds asserted by part_003's
`time_to` — `-edge ≤ dx, dy ≤ edge` and `0 ≤ dx² + dy² ≤ 20000` (i.e.
`time_min = 0 ≤ time ≤ time_max`, the per-waypoint bound built on
`dist_min = 0` that tolerates zero-distance duplicate hops, unlike the
global `dist_min = 1` uniqueness bound). -/
theorem c9_duplicates_still_finish :
    (∀ (K : Type) [inst : CostAlg K] (T : ℤ → ℤ → K) (ws : List Waypoint),
      (∀ w ∈ ws, w.sane) →
      (∃ i j : Fin ws.length, i ≠ j ∧ (ws.get i).x = (ws.get j).x ∧
        (ws.get i).y = (ws.get j).y) →
      ∃ v, P3.solve T ws = some v) ∧
      (∀ a b : Waypoint, a.sane → b.sane →
        -100 ≤ b.x - a.x ∧ b.x - a.x ≤ 100 ∧ -100 ≤ b.y - a.y ∧ b.y - a.y ≤ 100 ∧
          0 ≤ normSq (b.x - a.x) (b.y - a.y) ∧
          normSq (b.x - a.x) (b.y - a.y) ≤ 20000) := by
  constructor
  · intro K inst T ws hsane _
    exact P3.solveGo_total T ws _ none _ 0 (by simp) hsane
  · intro a b ha hb
    obtain ⟨hax0, hax1, hay0, hay1⟩ := ha
    obtain ⟨hbx0, hbx1, hby0, hby1⟩ := hb
    unfold normSq
    refine ⟨by omega, by omega, by omega, by omega,
      add_nonneg (mul_self_nonneg _) (mul_self_nonneg _), by nlinarith⟩

/-- Witness for C9: the duplicated case `caseC9` completes, and the
zero-distance duplicate delta passes the part_003 bounds. -/
theorem c9_duplicates_still_finish_witness :
    (∃ v, P3.solve timeC caseC9 = some v) ∧
      (-100 ≤ (4 : ℤ) - 4 ∧ (4 : ℤ) - 4 ≤ 100 ∧ -100 ≤ (2 : ℤ) - 2 ∧
        (2 : ℤ) - 2 ≤ 100 ∧ 0 ≤ normSq ((4 : ℤ) - 4) ((2 : ℤ) - 2) ∧
        normSq ((4 : ℤ) - 4) ((2 : ℤ) - 2) ≤ 20000) := by
  constructor
  · exact c9_duplicates_still_finish.1 Cost timeC caseC9 (by decide)
      ⟨⟨0, by decide⟩, ⟨1, by decide⟩, by decide, rfl, rfl⟩
  · have h := c9_duplicates_still_finish.2 ⟨4, 2, 5⟩ ⟨4, 2, 7⟩ (by decide) (by decide)
    exact h

/-- Step equation for the part_003 loop on a sane waypoint whose best cost
is already computed. -/
theorem P3.solveGo_cons_eq {K : Type} [CostAlg K] (T : ℤ → ℤ → K)
    (heap : List (P3.OptimisedWaypoint K)) (acc : Option K) (cmb : K)
    (total : ℕ) (w : Waypoint) (rest : List Waypoint) (m : K)
    (hs : w.sane) (hm : P3.get_best_cost T w heap = some m) :
    P3.solveGo T heap acc cmb total (w :: rest) =
      if P3.accGe acc (P3.OptimisedWaypoint.make T w m).cost_min then
        if (P3.OptimisedWaypoint.make T w m).cost_min ≤ cmb then
          P3.solveGo T
            (P3.prune (P3.cost_max T (P3.OptimisedWaypoint.make T w m)) heap
              ++ [P3.OptimisedWaypoint.make T w m])
            (some (P3.cost_max T (P3.OptimisedWaypoint.make T w m)))
            (P3.OptimisedWaypoint.make T w m).cost_min (total + w.penalty) rest
        else P3.solveGo T (heap ++ [P3.OptimisedWaypoint.make T w m]) acc cmb
          (total + w.penalty) rest
      else P3.solveGo T heap acc cmb (total + w.penalty) rest := by
  rw [P3.solveGo, if_pos hs, hm]

/-- Lower-bound invariant for the part_003 loop: if every candidate's
invariant cost dominates the direct travel time from the origin to its
waypoint, plus one delay, minus the penalties banked so far, then the
final result is at least the direct corner-to-corner time plus one delay.
The hypotheses on `T` hold of the Euclidean travel time: `T 0 0 = 0`,
non-negativity, symmetry under delta negation, and the triangle
inequality in delta form. -/
theorem P3.solveGo_lower_bound {K : Type} [CostAlg K] (T : ℤ → ℤ → K)
    (hsym : ∀ dx dy : ℤ, T (-dx) (-dy) = T dx dy)
    (htri : ∀ x1 y1 x2 y2 : ℤ, T (x1 + x2) (y1 + y2) ≤ T x1 y1 + T x2 y2) :
    ∀ (ws : List Waypoint) (heap : List (P3.OptimisedWaypoint K))
      (acc : Option K) (cmb : K) (total : ℕ) (v : K),
      (∀ c ∈ heap,
        T c.waypoint.x c.waypoint.y + ofn 10 - ofn total ≤ c.cost_invariant) →
      P3.solveGo T heap acc cmb total ws = some v →
      T 100 100 + ofn 10 ≤ v := by
  intro ws
  induction ws with
  | nil =>
    intro heap acc cmb total v hinv heq
    rw [P3.solveGo] at heq
    cases hgb : P3.get_best_cost T tailW heap with
    | none => rw [hgb] at heq; simp at heq
    | some m =>
      rw [hgb] at heq
      have hv : m + ofn total = v := by simpa using heq
      have hne : heap ≠ [] := by
        intro h
        rw [h] at hgb
        exact absurd hgb (by simp [P3.get_best_cost])
      obtain ⟨m', hm', _, c, hc, hceq⟩ := P3.get_best_cost_min_over_heap T tailW heap hne
      have hmm : m' = m := by
        rw [hgb] at hm'
        exact (Option.some_injective _ hm').symm
      subst hmm
      have h2 := hinv c hc
      have h1 : T 100 100 ≤ T c.waypoint.x c.waypoint.y +
          T (c.waypoint.x - 100) (c.waypoint.y - 100) := by
        have ht := htri c.waypoint.x c.waypoint.y (100 - c.waypoint.x) (100 - c.waypoint.y)
        have hx : c.waypoint.x + (100 - c.waypoint.x) = 100 := by ring
        have hy : c.waypoint.y + (100 - c.waypoint.y) = 100 := by ring
        rw [hx, hy] at ht
        have hs : T (100 - c.waypoint.x) (100 - c.waypoint.y) =
            T (c.waypoint.x - 100) (c.waypoint.y - 100) := by
          rw [← neg_sub c.waypoint.x (100 : ℤ), ← neg_sub c.waypoint.y (100 : ℤ), hsym]
        rw [hs] at ht
        exact ht
      have hcost : m' = T (c.waypoint.x - 100) (c.waypoint.y - 100) + c.cost_invariant := by
        rw [hceq]
        unfold P3.cost_to P3.time_to tailW
        rfl
      rw [← hv]
      calc T 100 100 + ofn 10
          = T 100 100 + ofn 10 - ofn total + ofn total := by abel
        _ ≤ (T c.waypoint.x c.waypoint.y + T (c.waypoint.x - 100) (c.waypoint.y - 100))
              + ofn 10 - ofn total + ofn total := by
            have := add_le_add_right (add_le_add_right h1 (ofn 10 : K)) (- ofn total : K)
            exact add_le_add_right (by
              calc T 100 100 + ofn 10 - ofn total
                  = T 100 100 + ofn 10 + - ofn total := by abel
                _ ≤ (T c.waypoint.x c.waypoint.y + T (c.waypoint.x - 100) (c.waypoint.y - 100))
                      + ofn 10 + - ofn total := this
                _ = (T c.waypoint.x c.waypoint.y + T (c.waypoint.x - 100) (c.waypoint.y - 100))
                      + ofn 10 - ofn total := by abel) (ofn total : K)
        _ = T (c.waypoint.x - 100) (c.waypoint.y - 100) +
              (T c.waypoint.x c.waypoint.y + ofn 10 - ofn total) + ofn total := by abel
        _ ≤ T (c.waypoint.x - 100) (c.waypoint.y - 100) + c.cost_invariant + ofn total := by
            exact add_le_add_right (add_le_add_left h2 _) _
        _ = m' + ofn total := by rw [hcost]
  | cons w rest ih =>
    intro heap acc cmb total v hinv heq
    by_cases hs : w.sane
    · cases hgb : P3.get_best_cost T w heap with
      | none =>
        rw [P3.solveGo, if_pos hs, hgb] at heq
        simp at heq
      | some best =>
        rw [P3.solveGo_cons_eq T heap acc cmb total w rest best hs hgb] at heq
        have hne : heap ≠ [] := by
          intro h
          rw [h] at hgb
          exact absurd hgb (by simp [P3.get_best_cost])
        obtain ⟨m', hm', _, cstar, hcs, hcseq⟩ := P3.get_best_cost_min_over_heap T w heap hne
        have hmm : m' = best := by
          rw [hgb] at hm'
          exact (Option.some_injective _ hm').symm
        subst hmm
        -- the freshly computed best cost dominates the direct time to w
        have hbest : T w.x w.y + ofn 10 - ofn total ≤ m' := by
          have h2 := hinv cstar hcs
          have h1 : T w.x w.y ≤ T cstar.waypoint.x cstar.waypoint.y +
              T (cstar.waypoint.x - w.x) (cstar.waypoint.y - w.y) := by
            have ht := htri cstar.waypoint.x cstar.waypoint.y
              (w.x - cstar.waypoint.x) (w.y - cstar.waypoint.y)
            have hx : cstar.waypoint.x + (w.x - cstar.waypoint.x) = w.x := by ring
            have hy : cstar.waypoint.y + (w.y - cstar.waypoint.y) = w.y := by ring
            rw [hx, hy] at ht
            have hsw : T (w.x - cstar.waypoint.x) (w.y - cstar.waypoint.y) =
                T (cstar.waypoint.x - w.x) (cstar.waypoint.y - w.y) := by
              rw [← neg_sub cstar.waypoint.x w.x, ← neg_sub cstar.waypoint.y w.y, hsym]
            rw [hsw] at ht
            exact ht
          have hcost : m' = T (cstar.waypoint.x - w.x) (cstar.waypoint.y - w.y)
              + cstar.cost_invariant := by
            rw [hcseq]
            unfold P3.cost_to P3.time_to
            rfl
          rw [hcost]
          calc T w.x w.y + ofn 10 - ofn total
              ≤ (T cstar.waypoint.x cstar.waypoint.y +
                  T (cstar.waypoint.x - w.x) (cstar.waypoint.y - w.y)) + ofn 10 - ofn total := by
                have := add_le_add_right (add_le_add_right h1 (ofn 10 : K)) (- ofn total : K)
                calc T w.x w.y + ofn 10 - ofn total
                    = T w.x w.y + ofn 10 + - ofn total := by abel
                  _ ≤ _ := this
                  _ = (T cstar.waypoint.x cstar.waypoint.y +
                      T (cstar.waypoint.x - w.x) (cstar.waypoint.y - w.y)) + ofn 10 - ofn total := by
                    abel
            _ = T (cstar.waypoint.x - w.x) (cstar.waypoint.y - w.y) +
                  (T cstar.waypoint.x cstar.waypoint.y + ofn 10 - ofn total) := by abel
            _ ≤ T (cstar.waypoint.x - w.x) (cstar.waypoint.y - w.y) + cstar.cost_invariant :=
                add_le_add_left h2 _
        -- the invariant survives the penalty accrual for the existing heap
        have hkeep : ∀ c ∈ heap,
            T c.waypoint.x c.waypoint.y + ofn 10 - ofn (total + w.penalty) ≤
              c.cost_invariant := by
          intro c hc
          refine le_trans ?_ (hinv c hc)
          have hmono2 : (ofn total : K) ≤ ofn (total + w.penalty) := by
            rw [CostAlg.ofn_add]
            have := @CostAlg.ofn_nonneg K _ w.penalty
            calc (ofn total : K) = ofn total + 0 := by abel
              _ ≤ ofn total + ofn w.penalty := add_le_add_left this _
          exact sub_le_sub_left hmono2 _
        -- and holds of the new candidate
        have hnew : T w.x w.y + ofn 10 - ofn (total + w.penalty) ≤
            (P3.OptimisedWaypoint.make T w m').cost_invariant := by
          show _ ≤ m' - ofn w.penalty + ofn 10
          have h10 := @CostAlg.ofn_nonneg K _ 10
          calc T w.x w.y + ofn 10 - ofn (total + w.penalty)
              = (T w.x w.y + ofn 10 - ofn total) - ofn w.penalty := by
                rw [CostAlg.ofn_add]; abel
            _ ≤ m' - ofn w.penalty := sub_le_sub_right hbest _
            _ = m' - ofn w.penalty + 0 := by abel
            _ ≤ m' - ofn w.penalty + ofn 10 := add_le_add_left h10 _
        by_cases hacc : P3.accGe acc (P3.OptimisedWaypoint.make T w m').cost_min
        · rw [if_pos hacc] at heq
          by_cases hcmb : (P3.OptimisedWaypoint.make T w m').cost_min ≤ cmb
          · rw [if_pos hcmb] at heq
            refine ih _ _ _ _ _ ?_ heq
            intro c hc
            rcases List.mem_append.mp hc with hc' | hc'
            · exact hkeep c (List.mem_of_mem_filter hc')
            · rw [List.mem_singleton.mp hc']
              exact hnew
          · rw [if_neg hcmb] at heq
            refine ih _ _ _ _ _ ?_ heq
            intro c hc
            rcases List.mem_append.mp hc with hc' | hc'
            · exact hkeep c hc'
            · rw [List.mem_singleton.mp hc']
              exact hnew
        · rw [if_neg hacc] at heq
          exact ih _ _ _ _ _ hkeep heq
    · rw [P3.solveGo, if_neg hs] at heq
      exact absurd heq (by simp)

/-- C10: for every case the part_003 engine completes on, the returned
result is at least `travel_time((0,0),(100,100)) + delay`: every hop —
including the direct origin-to-terminus hop that skips every intermediate
waypoint — carries one fixed delay, banked in each candidate's invariant
cost, and at least one hop is always taken.  `T` is assumed to behave like
the Euclidean travel time: zero at the origin delta, non-negative,
symmetric under negation and subadditive over delta composition. -/
theorem c10_result_at_least_direct_plus_delay (K : Type) [CostAlg K]
    (T : ℤ → ℤ → K)
    (h00 : T 0 0 = 0)
    (hnn : ∀ dx dy : ℤ, 0 ≤ T dx dy)
    (hsym : ∀ dx dy : ℤ, T (-dx) (-dy) = T dx dy)
    (htri : ∀ x1 y1 x2 y2 : ℤ, T (x1 + x2) (y1 + y2) ≤ T x1 y1 + T x2 y2)
    (ws : List Waypoint) (v : K) (hv : P3.solve T ws = some v) :
    T 100 100 + ofn 10 ≤ v := by
  refine P3.solveGo_lower_bound T hsym htri ws _ none _ 0 v ?_ hv
  intro c hc
  rw [List.mem_singleton.mp hc]
  show T 0 0 + ofn 10 - ofn 0 ≤ 0 - ofn headW.penalty + ofn 10
  rw [h00, @CostAlg.ofn_zero K _]
  show (0 : K) + ofn 10 - 0 ≤ 0 - ofn 0 + ofn 10
  rw [@CostAlg.ofn_zero K _]
  abel_nf
  simp

/-- Taxicab travel time over ℤ: satisfies every hypothesis of the
lower-bound theorem, used to witness it on a concrete run. -/
def taxiT (dx dy : ℤ) : ℤ := |dx| + |dy|

/-- Witness for C10: with the taxicab time over ℤ on the empty case the
engine returns 210, which meets the bound `T 100 100 + delay = 210`. -/
theorem c10_result_at_least_direct_plus_delay_witness :
    taxiT 100 100 + ofn 10 ≤ (210 : ℤ) :=
  c10_result_at_least_direct_plus_delay ℤ taxiT (by decide)
    (fun dx dy => add_nonneg (abs_nonneg _) (abs_nonneg _))
    (fun dx dy => by unfold taxiT; rw [abs_neg, abs_neg])
    (fun x1 y1 x2 y2 => by
      have h1 := abs_add x1 x2
      have h2 := abs_add y1 y2
      unfold taxiT
      linarith)
    [] 210 (by decide)

/-!
## C6: sign-trick equivalence

The negative-penalty multiset engine (main.cpp unit 1) and the naive
positive-penalty engine (part_002 unit 1) are related step by step: after
processing penalties summing to `P`, every positive-accrual candidate's
invariant cost is the corresponding negative-accrual candidate's invariant
cost shifted by `P`.  The shift is uniform, so minima, insertion positions
and prune decisions coincide, and the final `+ total_penalty` correction of
the negative engine lands exactly on the positive engine's uncorrected
result.
-/

section SignTrick

variable {K : Type} [CostAlg K]

/-- Pointwise relation between a negative-accrual candidate and a
positive-accrual candidate after penalties summing to `P` have been
processed: same waypoint, invariant costs shifted by `P`. -/
def SignRel (P : ℕ) (cn : M1.OptimisedWaypoint K) (cp : P2.OptimisedWaypoint K) :
    Prop :=
  cp.waypoint = cn.waypoint ∧ P2.inv cp = M1.inv cn + ofn P

theorem SignRel.cost_for {P : ℕ} {cn : M1.OptimisedWaypoint K}
    {cp : P2.OptimisedWaypoint K} (T : ℤ → ℤ → K) (h : SignRel P cn cp)
    (v : Waypoint) : P2.cost_for T cp v = M1.cost_for T cn v + ofn P := by
  obtain ⟨hw, hi⟩ := h
  unfold P2.cost_for M1.cost_for
  unfold P2.inv M1.inv at hi
  rw [hw]
  calc T (v.x - cn.waypoint.x) (v.y - cn.waypoint.y) + cp.best_cost +
        ofn cp.accrued_penalty + ofn 10
      = T (v.x - cn.waypoint.x) (v.y - cn.waypoint.y) +
          (ofn cp.accrued_penalty + cp.best_cost) + ofn 10 := by abel
    _ = T (v.x - cn.waypoint.x) (v.y - cn.waypoint.y) +
          (cn.best_cost - ofn cn.accrued_penalty + ofn P) + ofn 10 := by rw [hi]
    _ = T (v.x - cn.waypoint.x) (v.y - cn.waypoint.y) + cn.best_cost -
          ofn cn.accrued_penalty + ofn 10 + ofn P := by abel

/-- The minimum-fold over related candidate lists is shifted by `P`. -/
theorem signrel_get_best_cost {P : ℕ} (T : ℤ → ℤ → K) (v : Waypoint) :
    ∀ {ln : List (M1.OptimisedWaypoint K)} {lp : List (P2.OptimisedWaypoint K)},
      List.Forall₂ (SignRel P) ln lp →
      P2.get_best_cost T v lp = (M1.get_best_cost T v ln).map (fun m => m + ofn P) := by
  intro ln lp h
  cases h with
  | nil => rfl
  | cons hc ht =>
    rename_i cn cp tn tp
    show some _ = some _
    congr 1
    have : ∀ (restn : List (M1.OptimisedWaypoint K))
        (restp : List (P2.OptimisedWaypoint K)) (accn : K),
        List.Forall₂ (SignRel P) restn restp →
        restp.foldl (fun acc ow => min acc (P2.cost_for T ow v)) (accn + ofn P) =
          restn.foldl (fun acc ow => min acc (M1.cost_for T ow v)) accn + ofn P := by
      intro restn restp accn hr
      induction hr generalizing accn with
      | nil => rfl
      | cons hc' ht' ih =>
        rename_i cn' cp' tn' tp'
        simp only [List.foldl_cons]
        rw [hc'.cost_for T v, min_add_add_right]
        exact ih _
    rw [hc.cost_for T v]
    exact this _ _ _ ht

/-- Upper-bound insertion into related sorted lists stays related. -/
theorem signrel_emplace {P : ℕ} {cn : M1.OptimisedWaypoint K}
    {cp : P2.OptimisedWaypoint K} (hc : SignRel P cn cp) :
    ∀ {ln : List (M1.OptimisedWaypoint K)} {lp : List (P2.OptimisedWaypoint K)},
      List.Forall₂ (SignRel P) ln lp →
      List.Forall₂ (SignRel P) (M1.emplace cn ln) (P2.emplace cp lp) := by
  intro ln lp h
  induction h with
  | nil => exact List.Forall₂.cons hc List.Forall₂.nil
  | cons hh ht ih =>
    rename_i hn hp tn tp
    show List.Forall₂ (SignRel P)
      (if M1.inv cn < M1.inv hn then cn :: hn :: tn else hn :: M1.emplace cn tn)
      (if P2.inv cp < P2.inv hp then cp :: hp :: tp else hp :: P2.emplace cp tp)
    have hiff : P2.inv cp < P2.inv hp ↔ M1.inv cn < M1.inv hn := by
      rw [hc.2, hh.2]
      exact add_lt_add_iff_right _
    by_cases hlt : M1.inv cn < M1.inv hn
    · rw [if_pos hlt, if_pos (hiff.mpr hlt)]
      exact List.Forall₂.cons hc (List.Forall₂.cons hh ht)
    · rw [if_neg hlt, if_neg (fun hp' => hlt (hiff.mp hp'))]
      exact List.Forall₂.cons hh ih

/-- `dropWhile` over related lists with pointwise-equivalent predicates. -/
theorem signrel_dropWhile {P : ℕ} (pn : M1.OptimisedWaypoint K → Bool)
    (pp : P2.OptimisedWaypoint K → Bool)
    (hpq : ∀ cn cp, SignRel P cn cp → pn cn = pp cp) :
    ∀ {ln : List (M1.OptimisedWaypoint K)} {lp : List (P2.OptimisedWaypoint K)},
      List.Forall₂ (SignRel P) ln lp →
      List.Forall₂ (SignRel P) (ln.dropWhile pn) (lp.dropWhile pp) := by
  intro ln lp h
  induction h with
  | nil => exact List.Forall₂.nil
  | cons hh ht ih =>
    rename_i hn hp tn tp
    rw [List.dropWhile_cons, List.dropWhile_cons, ← hpq hn hp hh]
    by_cases hb : pn hn = true
    · rw [if_pos hb, if_pos hb]
      exact ih
    · rw [if_neg hb, if_neg hb]
      exact List.Forall₂.cons hh ht

/-- Pruning related lists (same threshold constants) stays related. -/
theorem signrel_prune {P : ℕ} (tmaxC tminC : K) :
    ∀ {ln : List (M1.OptimisedWaypoint K)} {lp : List (P2.OptimisedWaypoint K)},
      List.Forall₂ (SignRel P) ln lp →
      List.Forall₂ (SignRel P) (M1.prune tmaxC tminC ln) (P2.prune tmaxC tminC lp) := by
  intro ln lp h
  cases h with
  | nil => exact List.Forall₂.nil
  | cons hh ht =>
    rename_i hn hp tn tp
    show List.Forall₂ (SignRel P)
      (dropTrailing (fun c => decide (M1.inv hn + tmaxC - tminC < M1.inv c)) (hn :: tn))
      (dropTrailing (fun c => decide (P2.inv hp + tmaxC - tminC < P2.inv c)) (hp :: tp))
    unfold dropTrailing
    rw [← List.forall₂_reverse_iff]
    simp only [List.reverse_reverse]
    refine signrel_dropWhile _ _ ?_ ?_
    · intro cn cp hcc
      have h1 : P2.inv hp + tmaxC - tminC = M1.inv hn + tmaxC - tminC + ofn P := by
        rw [hh.2]
        abel
      rw [hcc.2, h1]
      by_cases hlt : M1.inv hn + tmaxC - tminC < M1.inv cn
      · simp [hlt, add_lt_add_iff_right]
      · simp [hlt, add_lt_add_iff_right]
    · rw [List.forall₂_reverse_iff]
      exact List.Forall₂.cons hh ht

/-- The per-step positive re-accrual shifts the relation by the new
penalty. -/
theorem signrel_shiftAll {P : ℕ} (p : ℕ) :
    ∀ {ln : List (M1.OptimisedWaypoint K)} {lp : List (P2.OptimisedWaypoint K)},
      List.Forall₂ (SignRel P) ln lp →
      List.Forall₂ (SignRel (P + p)) ln (P2.shiftAll p lp) := by
  intro ln lp h
  induction h with
  | nil => exact List.Forall₂.nil
  | cons hh ht ih =>
    rename_i hn hp tn tp
    refine List.Forall₂.cons ⟨hh.1, ?_⟩ ih
    show P2.inv ⟨hp.waypoint, hp.best_cost, hp.accrued_penalty + p⟩ = _
    unfold P2.inv
    show ofn (hp.accrued_penalty + p) + hp.best_cost = M1.inv hn + ofn (P + p)
    rw [CostAlg.ofn_add, CostAlg.ofn_add]
    have := hh.2
    unfold P2.inv at this
    calc ofn hp.accrued_penalty + ofn p + hp.best_cost
        = (ofn hp.accrued_penalty + hp.best_cost) + ofn p := by abel
      _ = M1.inv hn + ofn P + ofn p := by rw [this]
      _ = M1.inv hn + (ofn P + ofn p) := by abel

/-- Loop-level equivalence: related states produce the positive engine's
result equal to the negative engine's corrected result. -/
theorem signrel_solveGo (T : ℤ → ℤ → K) (tmaxC tminC : K) :
    ∀ (pending : List Waypoint) (total : ℕ)
      (ln : List (M1.OptimisedWaypoint K)) (lp : List (P2.OptimisedWaypoint K)),
      List.Forall₂ (SignRel total) ln lp →
      P2.solveGo T tmaxC tminC lp pending = M1.solveGo T tmaxC tminC ln total pending := by
  intro pending
  induction pending with
  | nil =>
    intro total ln lp h
    show P2.get_best_cost T headW lp =
      (M1.get_best_cost T headW ln).map (fun cb => cb + ofn total)
    exact signrel_get_best_cost T headW h
  | cons v rest ih =>
    intro total ln lp h
    rw [P2.solveGo, M1.solveGo]
    rw [signrel_get_best_cost T v h]
    cases hgb : M1.get_best_cost T v ln with
    | none => rfl
    | some bn =>
      simp only [Option.map]
      have hnewrel : SignRel (total + v.penalty)
          (⟨v, bn, v.penalty⟩ : M1.OptimisedWaypoint K)
          (⟨v, bn + ofn total, 0⟩ : P2.OptimisedWaypoint K) := by
        refine ⟨rfl, ?_⟩
        show ofn 0 + (bn + ofn total) = (bn - ofn v.penalty) + ofn (total + v.penalty)
        rw [CostAlg.ofn_zero, CostAlg.ofn_add]
        abel
      have hshift := signrel_shiftAll v.penalty h
      have hemp := signrel_emplace hnewrel hshift
      have hpr := signrel_prune tmaxC tminC hemp
      exact ih (total + v.penalty) _ _ hpr

/-- C6: the naive positive-penalty formulation (part_002 unit 1, which
re-adds the visited waypoint's penalty to every live candidate at every
step and returns the final minimum unchanged) returns exactly the same
value as the negative-penalty formulation (main.cpp unit 1, which banks
each candidate's penalty negatively and adds the running penalty total once
at the end) — for every input case, every cost domain, every travel-time
function and any prune threshold constants. -/
theorem c6_sign_trick_equivalence (K : Type) [CostAlg K] (T : ℤ → ℤ → K)
    (tmaxC tminC : K) (ws : List Waypoint) :
    P2.solve T tmaxC tminC ws = M1.solve T tmaxC tminC ws := by
  unfold P2.solve M1.solve
  refine signrel_solveGo T tmaxC tminC ws.reverse 0 _ _ ?_
  refine List.Forall₂.cons ⟨rfl, ?_⟩ List.Forall₂.nil
  show ofn 0 + 0 = (0 - ofn 0) + ofn 0
  rw [CostAlg.ofn_zero]
  abel
